import Mathlib

/-!
# Verification of `dtreeviz.utils.inline_svg_images`

Shallow embedding of `src/dtreeviz/utils.py` (function `inline_svg_images`).

The Python code operates on `xml.etree.cElementTree` trees.  We model an
XML element as a rose tree carrying:
  * `uid`  — a natural number modelling CPython object identity (`id(obj)`);
    `ElementTree` mutation (`p.append`, `p.remove`, `parent_map` keyed by
    object) is identity-based, so identity must be explicit in a pure model.
    Each call of `ET.fromstring` produces objects whose identities are fresh
    (distinct from every live object), modelled by renumbering with a counter.
  * `tag`  — the qualified tag exactly as `ElementTree` stores it, i.e. the
    string `"{namespace-uri}local"` for namespaced names.
  * `attrib` — the ordered key/value list (Python `dict` preserves insertion
    order and has pairwise-distinct keys).
  * `children` — the ordered child list.
Character data (`.text`/`.tail`) is not modelled: no claim concerns it and
the spec's data model (§3) lists only name, attributes and children.
-/

inductive Element : Type where
  | mk : Nat → String → List (String × String) → List Element → Element

namespace Element

def uid : Element → Nat
  | .mk u _ _ _ => u

def tag : Element → String
  | .mk _ t _ _ => t

def attrib : Element → List (String × String)
  | .mk _ _ a _ => a

def children : Element → List Element
  | .mk _ _ _ cs => cs

end Element

mutual

/-- Boolean structural equality on elements. -/
def eqbE : Element → Element → Bool
  | .mk u1 t1 a1 cs1, .mk u2 t2 a2 cs2 =>
    u1 == u2 && t1 == t2 && a1 == a2 && eqbL cs1 cs2

/-- Boolean structural equality on element lists. -/
def eqbL : List Element → List Element → Bool
  | [], [] => true
  | x :: xs, y :: ys => eqbE x y && eqbL xs ys
  | _, _ => false

end

mutual

theorem eqbE_iff : ∀ a b : Element, eqbE a b = true ↔ a = b
  | .mk u1 t1 a1 cs1, .mk u2 t2 a2 cs2 => by
    simp only [eqbE, Bool.and_eq_true, beq_iff_eq, Element.mk.injEq]
    constructor
    · rintro ⟨⟨⟨h1, h2⟩, h3⟩, h4⟩
      exact ⟨h1, h2, h3, (eqbL_iff cs1 cs2).mp h4⟩
    · rintro ⟨h1, h2, h3, h4⟩
      exact ⟨⟨⟨h1, h2⟩, h3⟩, (eqbL_iff cs1 cs2).mpr h4⟩

theorem eqbL_iff : ∀ xs ys : List Element, eqbL xs ys = true ↔ xs = ys
  | [], [] => by simp [eqbL]
  | [], _ :: _ => by simp [eqbL]
  | _ :: _, [] => by simp [eqbL]
  | x :: xs, y :: ys => by
    simp only [eqbL, Bool.and_eq_true, List.cons.injEq]
    constructor
    · rintro ⟨h1, h2⟩
      exact ⟨(eqbE_iff x y).mp h1, (eqbL_iff xs ys).mp h2⟩
    · rintro ⟨h1, h2⟩
      exact ⟨(eqbE_iff x y).mpr h1, (eqbL_iff xs ys).mpr h2⟩

end

instance : DecidableEq Element := fun a b => decidable_of_iff _ (eqbE_iff a b)

mutual

/-- Document-order (pre-order) listing of an element and all its descendants;
models `Element.iter()` of `ElementTree`. -/
def preorder : Element → List Element
  | .mk u t a cs => .mk u t a cs :: preorderL cs

/-- Pre-order listing of a forest, left to right. -/
def preorderL : List Element → List Element
  | [] => []
  | c :: cs => preorder c ++ preorderL cs

end

mutual

/-- Number of nodes of an element tree. -/
def sizeE : Element → Nat
  | .mk _ _ _ cs => 1 + sizeL cs

/-- Number of nodes of a forest. -/
def sizeL : List Element → Nat
  | [] => 0
  | c :: cs => sizeE c + sizeL cs

end

/-- The uids occurring in a tree, in document order. -/
def uidsE (e : Element) : List Nat := (preorder e).map Element.uid

/-- The uids occurring in a forest, in document order. -/
def uidsL (cs : List Element) : List Nat := (preorderL cs).map Element.uid

theorem preorder_mk (u : Nat) (t : String) (a : List (String × String))
    (cs : List Element) :
    preorder (.mk u t a cs) = .mk u t a cs :: preorderL cs := rfl

theorem preorderL_cons (c : Element) (cs : List Element) :
    preorderL (c :: cs) = preorder c ++ preorderL cs := rfl

theorem self_mem_preorder (e : Element) : e ∈ preorder e := by
  cases e with
  | mk u t a cs => exact List.mem_cons_self _ _

theorem uidsE_def (e : Element) :
    uidsE e = e.uid :: uidsL e.children := by
  cases e with
  | mk u t a cs => simp [uidsE, uidsL, preorder, Element.uid, Element.children]

theorem uidsL_cons (c : Element) (cs : List Element) :
    uidsL (c :: cs) = uidsE c ++ uidsL cs := by
  simp [uidsE, uidsL, preorderL]

theorem uidsL_nil : uidsL [] = [] := rfl

/-! ## Namespaces and qualified names (lines 42, 51, 67-68 of utils.py)

`ElementTree` stores a namespaced name as the single string
`"{namespace-uri}localname"`; the literal braces are written `\x7b`/`\x7d`. -/

def svgNS : String := "http://www.w3.org/2000/svg"

def xlinkNS : String := "http://www.w3.org/1999/xlink"

/-- Qualified name in `ElementTree`'s `"{uri}local"` form. -/
def qn (ns nm : String) : String := "\x7b" ++ ns ++ "\x7d" ++ nm

def gTag : String := qn svgNS "g"

def imageTag : String := qn svgNS "image"

/-- The reference-identifying attribute `xlink:href` (line 51). -/
def hrefKey : String := qn xlinkNS "href"

/-! ## `filename.replace('.png', '.svg')` (line 52)

Python `str.replace` replaces every occurrence, scanning left to right,
non-overlapping. -/

/-- Whether the character list starts with `".png"`. -/
def startsPng : List Char → Bool
  | c1 :: c2 :: c3 :: c4 :: _ => c1 == '.' && c2 == 'p' && c3 == 'n' && c4 == 'g'
  | _ => false

/-- Leftmost, non-overlapping replacement of every `".png"` by `".svg"`
in a character list; on a non-match the scan advances one character. -/
def pngToSvg : List Char → List Char
  | '.' :: 'p' :: 'n' :: 'g' :: rest => '.' :: 's' :: 'v' :: 'g' :: pngToSvg rest
  | c :: rest => c :: pngToSvg rest
  | [] => []

/-- `filename.replace('.png', '.svg')` of line 52. -/
def replacePngSvg (s : String) : String := ⟨pngToSvg s.data⟩

/-- Whether `".png"` occurs as a contiguous substring. -/
def hasPng : List Char → Bool
  | [] => false
  | c :: rest => startsPng (c :: rest) || hasPng rest

/-! ## Attribute dictionaries

Python `dict` preserves insertion order and has pairwise-distinct keys;
`d[k] = v` updates the value in place when `k` is present, else appends. -/

/-- First-match association lookup (on distinct keys this is `dict` lookup). -/
def lookupA (attrs : List (String × String)) (k : String) : Option String :=
  match attrs with
  | [] => none
  | kv :: rest => if kv.1 = k then some kv.2 else lookupA rest k

def keysA (attrs : List (String × String)) : List String := attrs.map Prod.fst

/-- `d[k] = v` on an insertion-ordered dictionary. -/
def setAttr (attrs : List (String × String)) (k v : String) : List (String × String) :=
  if (keysA attrs).contains k then
    attrs.map (fun kv => if kv.1 = k then (kv.1, v) else kv)
  else attrs ++ [(k, v)]

/-- Lines 57-59: copy every attribute of the `IMAGE` tag onto the referenced
root, in insertion order, except `xlink:href`. -/
def copyAttrs (src dst : List (String × String)) : List (String × String) :=
  src.foldl (fun acc kv => if kv.1 = hrefKey then acc else setAttr acc kv.1 kv.2) dst

/-! ## The placeholder search (line 48)

`tree.findall(".//svg:g/svg:image", ns)` with `ns = {"svg": svgNS}`:
`ElementPath` yields, for every *strict descendant* of the root whose tag is
`{svgNS}g` (in document order; the root itself is excluded by the
`e is not elem` guard of `prepare_descendant`), its `{svgNS}image` children
in child order. -/

def imageChildren (g : Element) : List Element :=
  g.children.filter (fun c => c.tag == imageTag)

/-- The matched placeholder `<image>` elements, in `findall` order. -/
def image_tags (root : Element) : List Element :=
  ((preorderL root.children).filter (fun e => e.tag == gTag)).flatMap imageChildren

/-- The same search keeping each matched image with the `g` it was found
under (used only in proofs; `image_tags root = (findPairs root).map Prod.snd`). -/
def findPairs (root : Element) : List (Element × Element) :=
  ((preorderL root.children).filter (fun e => e.tag == gTag)).flatMap
    (fun g => (imageChildren g).map (fun c => (g, c)))

/-! ## The parent map (line 45)

`{c: p for p in tree.iter() for c in p}` — keyed by object identity,
modelled by uid. -/

def parentEntries (root : Element) : List (Nat × Nat) :=
  (preorder root).flatMap (fun p => p.children.map (fun c => (c.uid, p.uid)))

def parentLookup (m : List (Nat × Nat)) (u : Nat) : Option Nat :=
  match m with
  | [] => none
  | kv :: rest => if kv.1 = u then some kv.2 else parentLookup rest u

/-! ## Fresh identities for a parsed referenced file (line 56)

`ET.fromstring(imgsvg)` builds brand-new objects; their identities are fresh
relative to every object already alive.  Modelled by renumbering the stored
tree's uids from a monotone counter. -/

mutual

def renumberE (n : Nat) : Element → Element × Nat
  | .mk _ t a cs =>
    let r := renumberL (n + 1) cs
    (.mk n t a r.1, r.2)

def renumberL (n : Nat) : List Element → List Element × Nat
  | [] => ([], n)
  | c :: cs =>
    let r1 := renumberE n c
    let r2 := renumberL r1.2 cs
    (r1.1 :: r2.1, r2.2)

end

/-- Lines 57-59 as a value: the referenced root with the `IMAGE` tag's
attributes copied over (overwriting, `xlink:href` excepted). -/
def mergedRoot (img imgroot : Element) : Element :=
  .mk imgroot.uid imgroot.tag (copyAttrs img.attrib imgroot.attrib) imgroot.children

/-- `list.remove(x)` with identity equality: drop the first child whose uid
matches (for uid-distinct trees this is exactly `p.remove(img)`; the
`ValueError` branch of Python is unreachable there). -/
def removeFirstUid : List Element → Nat → List Element
  | [], _ => []
  | c :: cs, u => if c.uid = u then cs else c :: removeFirstUid cs u

/-- Lines 63-64: `p.append(imgroot)` then `p.remove(img)`. -/
def spliceChildren (cs : List Element) (u : Nat) (r : Element) : List Element :=
  removeFirstUid (cs ++ [r]) u

mutual

/-- Rewrite the children of every node with uid `pu` by `f` (in a
uid-distinct tree there is at most one such node: in-place mutation of the
object `p`). -/
def updE (pu : Nat) (f : List Element → List Element) : Element → Element
  | .mk u t a cs =>
    let cs' := updL pu f cs
    if u = pu then .mk u t a (f cs') else .mk u t a cs'

def updL (pu : Nat) (f : List Element → List Element) : List Element → List Element
  | [] => []
  | c :: cs => updE pu f c :: updL pu f cs

end

/-! ## Errors and the filesystem

Errors raised by lines 43-64: `ET.ParseError` (malformed markup, lines 43
and 56), `OSError` (line 54, `open` fails — the spec's `FileAccessError`),
`KeyError` (missing `xlink:href` on line 51 or a `parent_map` miss on
line 61).  The filesystem is a finite map: an absent path means `open`
fails; `(path, none)` means the file opens and reads but its content is not
well-formed markup; `(path, some e)` means it parses to the tree `e`. -/

inductive InlineError : Type where
  | parseError
  | fileAccessError
  | keyError
deriving DecidableEq

abbrev FS := List (String × Option Element)

def fsLookup (fs : FS) (p : String) : Option (Option Element) :=
  match fs with
  | [] => none
  | qv :: rest => if qv.1 = p then some qv.2 else fsLookup rest p

/-! ## The substitution loop (lines 49-64)

State: the mutated tree and the fresh-identity counter.  The second
component of the result is the list of file paths passed to `open`, in
order (every attempted open is recorded, including the failing one). -/

def processImgs (fs : FS) (pm : List (Nat × Nat)) :
    List Element → Element → Nat → Except InlineError (Element × Nat) × List String
  | [], tree, ctr => (.ok (tree, ctr), [])
  | img :: rest, tree, ctr =>
    match lookupA img.attrib hrefKey with
    | none => (.error .keyError, [])                      -- line 51: KeyError
    | some filename =>
      let svgfilename := replacePngSvg filename           -- line 52
      match fsLookup fs svgfilename with
      | none => (.error .fileAccessError, [svgfilename])  -- line 54: open fails
      | some none => (.error .parseError, [svgfilename])  -- line 56: ParseError
      | some (some stored) =>
        match parentLookup pm img.uid with
        | none => (.error .keyError, [svgfilename])       -- line 61: KeyError
        | some pu =>
          let fresh := renumberE ctr stored               -- line 56: new objects
          let imgroot := mergedRoot img fresh.1           -- lines 57-59
          let tree' := updE pu (fun cs => spliceChildren cs img.uid imgroot) tree
          let r := processImgs fs pm rest tree' fresh.2
          (r.1, svgfilename :: r.2)

/-- The per-placeholder outcome: which error (if any) the iteration for
`img` raises.  It depends only on `img`'s attributes, the filesystem and
the (statically captured) parent map — not on the mutated tree. -/
def stepOutcome (fs : FS) (pm : List (Nat × Nat)) (img : Element) :
    Option InlineError :=
  match lookupA img.attrib hrefKey with
  | none => some .keyError
  | some filename =>
    match fsLookup fs (replacePngSvg filename) with
    | none => some .fileAccessError
    | some none => some .parseError
    | some (some _) =>
      match parentLookup pm img.uid with
      | none => some .keyError
      | some _ => none

def maxUid (e : Element) : Nat := (uidsE e).foldl max 0

/-- Lines 43-64 on an already-parsed root: the transformed tree plus the
log of attempted file opens. -/
def inlineRoot (fs : FS) (root : Element) : Except InlineError Element × List String :=
  let parent_map := parentEntries root                    -- line 45
  let imgs := image_tags root                             -- line 48
  let r := processImgs fs parent_map imgs root (maxUid root + 1)
  (r.1.map Prod.fst, r.2)

/-! ## Serialization (lines 67-69)

`ET.register_namespace('', svgNS)`, `ET.register_namespace('xlink', xlinkNS)`,
then `ET.tostring(root)`.  The serializer collects every namespace URI used
by a qualified tag or attribute key anywhere in the tree (first-use order
over a document-order scan), assigns each the registered alias — `''` for
the svg namespace, `'xlink'` for the xlink namespace, `'ns%d'` numbering for
unregistered ones — and writes all the `xmlns` declarations on the root
element.  A namespace that no qualified name uses is not declared. -/

/-- Split a character list at the first closing brace. -/
def breakClose : List Char → Option (List Char × List Char)
  | [] => none
  | c :: rest =>
    if c = '\x7d' then some ([], rest)
    else
      match breakClose rest with
      | none => none
      | some lr => some (c :: lr.1, lr.2)

/-- Split `"{uri}local"` into `(uri, local)`; `none` for unqualified names. -/
def splitQName (s : String) : Option (String × String) :=
  match s.data with
  | [] => none
  | c :: rest =>
    if c = '\x7b' then
      match breakClose rest with
      | some lr => some (⟨lr.1⟩, ⟨lr.2⟩)
      | none => none
    else none

def nsOf (q : String) : Option String := (splitQName q).map Prod.fst

def qnamesOf (e : Element) : List String := e.tag :: keysA e.attrib

/-- Keep the first occurrence of each string, dropping later duplicates. -/
def dedupKeep (seen : List String) : List String → List String
  | [] => []
  | x :: xs =>
    if seen.contains x then dedupKeep seen xs else x :: dedupKeep (x :: seen) xs

/-- The namespace URIs used in the tree, in first-use document order. -/
def usedNamespaces (e : Element) : List String :=
  dedupKeep [] (((preorder e).flatMap qnamesOf).filterMap nsOf)

/-- The two `register_namespace` calls of lines 67-68. -/
def registeredNS : List (String × String) := [(svgNS, ""), (xlinkNS, "xlink")]

/-- Assign each used URI its serialization alias: the registered alias when
registered, else a generated `ns%d` name. -/
def assignAliases : List String → Nat → List (String × String)
  | [], _ => []
  | uri :: rest, n =>
    match lookupA registeredNS uri with
    | some pr => (pr, uri) :: assignAliases rest (n + 1)
    | none => ("ns" ++ toString n, uri) :: assignAliases rest (n + 1)

/-- The namespace declarations the serializer places on the root element,
as (alias, uri) pairs. -/
def rootNsDecls (e : Element) : List (String × String) :=
  assignAliases (usedNamespaces e) 0

def aliasOf (decls : List (String × String)) (uri : String) : Option String :=
  match decls with
  | [] => none
  | pu :: rest => if pu.2 = uri then some pu.1 else aliasOf rest uri

/-- Rewrite a qualified name to its serialized form under the declarations. -/
def resolveName (decls : List (String × String)) (q : String) : String :=
  match splitQName q with
  | none => q
  | some un =>
    match aliasOf decls un.1 with
    | some "" => un.2
    | some pr => pr ++ ":" ++ un.2
    | none => q

def attrsString (res : String → String) (attrs : List (String × String)) : String :=
  attrs.foldl (fun acc kv => acc ++ " " ++ res kv.1 ++ "=\"" ++ kv.2 ++ "\"") ""

mutual

def elemString (res : String → String) : Element → String
  | .mk _ t a [] => "<" ++ res t ++ attrsString res a ++ " />"
  | .mk _ t a (c :: cs) =>
    "<" ++ res t ++ attrsString res a ++ ">" ++ forestString res (c :: cs)
      ++ "</" ++ res t ++ ">"

def forestString (res : String → String) : List Element → String
  | [] => ""
  | c :: cs => elemString res c ++ forestString res cs

end

/-- The `xmlns` attributes for the root: alias `""` gives `xmlns`, alias
`pr` gives `xmlns:pr`. -/
def declAttrs (decls : List (String × String)) : List (String × String) :=
  decls.map (fun d => (if d.1 = "" then "xmlns" else "xmlns:" ++ d.1, d.2))

/-- `ET.tostring(root).decode()` (line 69) after the two registrations. -/
def tostring (root : Element) : String :=
  elemString (resolveName (rootNsDecls root))
    (.mk root.uid root.tag (declAttrs (rootNsDecls root) ++ root.attrib) root.children)

/-! ## The whole transformation (lines 43-70)

The input string's parse is modelled by its result: `none` stands for an
input that is not well-formed markup (`ET.fromstring` raises `ParseError`
on line 43, before anything else runs). -/

def inline_svg_images (fs : FS) (svg : Option Element) :
    Except InlineError String × List String :=
  match svg with
  | none => (.error .parseError, [])
  | some root =>
    let r := inlineRoot fs root
    (r.1.map tostring, r.2)

/-! ## Derived notions used by the statements and proofs -/

/-- Whether `pat` occurs as a contiguous subsequence of the list. -/
def containsSeq (pat : List Char) : List Char → Bool
  | [] => pat.isEmpty
  | c :: rest => pat.isPrefixOf (c :: rest) || containsSeq pat rest

/-- The outcome of the loop as a whole: the error of the first placeholder
whose iteration fails, if any. -/
def firstFailure (fs : FS) (pm : List (Nat × Nat)) : List Element → Option InlineError
  | [] => none
  | img :: rest =>
    match stepOutcome fs pm img with
    | some e => some e
    | none => firstFailure fs pm rest

/-- The first node of the tree (in document order) carrying the given uid;
in a uid-distinct tree, the unique such node. -/
def nodeAt (t : Element) (u : Nat) : Option Element :=
  (preorder t).find? (fun e => e.uid == u)

mutual

/-- Structural equality ignoring uids (object identities are an artefact of
the model; two parses of the same file differ only in them). -/
def eqNoUidE : Element → Element → Bool
  | .mk _ t1 a1 cs1, .mk _ t2 a2 cs2 => t1 == t2 && a1 == a2 && eqNoUidL cs1 cs2

def eqNoUidL : List Element → List Element → Bool
  | [], [] => true
  | x :: xs, y :: ys => eqNoUidE x y && eqNoUidL xs ys
  | _, _ => false

end

/-- A node weight, depending on the node and on its parent's tag (`none`
when the parent is the document root, which `findall(".//...")` treats
specially). -/
abbrev Weight := Option String → Element → Nat

mutual

/-- Total weight of a subtree, the root of the subtree weighted with the
given parent information. -/
def wcountE (w : Weight) (pt : Option String) : Element → Nat
  | .mk u t a cs => w pt (.mk u t a cs) + wcountL w (some t) cs

/-- Total weight of a forest of siblings sharing the parent information. -/
def wcountL (w : Weight) (pt : Option String) : List Element → Nat
  | [] => 0
  | c :: cs => wcountE w pt c + wcountL w pt cs

end

def wImage : Weight := fun _ e => if e.tag = imageTag then 1 else 0

/-- Weight of one `(g, image)` parent/child pattern occurrence. -/
def wPair : Weight := fun pt e => if pt = some gTag ∧ e.tag = imageTag then 1 else 0

def wUid (d : Nat) : Weight := fun _ e => if e.uid = d then 1 else 0

def wElem (x : Element) : Weight := fun _ e => if e = x then 1 else 0

/-- Number of `{svg}image` elements in the tree, root included. -/
def countImages (t : Element) : Nat := wcountE wImage none t

/-- Number of placeholder-pattern matches in the tree: `image` children of
strict-descendant `g` elements (equals `(image_tags t).length`). -/
def matchedCount (t : Element) : Nat := wcountL wPair none t.children

/-- Number of occurrences of the value `x` as a node of `t`. -/
def occursCount (x : Element) (t : Element) : Nat := wcountE (wElem x) none t

/-- Number of nodes of `t` carrying uid `d`. -/
def uidCount (d : Nat) (t : Element) : Nat := wcountE (wUid d) none t

/-! ## Lemmas: attribute dictionaries -/

theorem keysA_cons (kv : String × String) (rest : List (String × String)) :
    keysA (kv :: rest) = kv.1 :: keysA rest := rfl

theorem contains_false_iff (l : List String) (k : String) :
    l.contains k = false ↔ k ∉ l := by
  induction l with
  | nil => simp
  | cons a as ih => simp [List.contains_cons]

theorem lookupA_eq_none (a : List (String × String)) (k : String)
    (h : k ∉ keysA a) : lookupA a k = none := by
  induction a with
  | nil => rfl
  | cons kv rest ih =>
    rw [keysA_cons] at h
    have h1 : kv.1 ≠ k := fun hk => h (hk ▸ List.mem_cons_self _ _)
    have h2 : k ∉ keysA rest := fun hk => h (List.mem_cons_of_mem _ hk)
    simp [lookupA, h1, ih h2]

theorem lookupA_append (a b : List (String × String)) (k : String) :
    lookupA (a ++ b) k = match lookupA a k with
      | some v => some v
      | none => lookupA b k := by
  induction a with
  | nil => simp [lookupA]
  | cons kv rest ih =>
    by_cases hk : kv.1 = k
    · simp [lookupA, hk]
    · simp [lookupA, hk, ih]

theorem lookupA_map_set_self (a : List (String × String)) (k v : String)
    (h : k ∈ keysA a) :
    lookupA (a.map (fun kv => if kv.1 = k then (kv.1, v) else kv)) k = some v := by
  induction a with
  | nil => simp [keysA] at h
  | cons kv rest ih =>
    by_cases hk : kv.1 = k
    · simp [lookupA, hk]
    · rw [keysA_cons] at h
      have h' : k ∈ keysA rest := by
        rcases List.mem_cons.mp h with h | h
        · exact absurd h.symm hk
        · exact h
      simp [lookupA, hk, ih h']

theorem lookupA_map_set_ne (a : List (String × String)) (k v k' : String)
    (h : k' ≠ k) :
    lookupA (a.map (fun kv => if kv.1 = k then (kv.1, v) else kv)) k'
      = lookupA a k' := by
  induction a with
  | nil => rfl
  | cons kv rest ih =>
    by_cases hk : kv.1 = k
    · have h1 : kv.1 ≠ k' := fun hx => h (by rw [← hx, hk])
      simp [lookupA, hk, h1, ih, Ne.symm h]
    · simp [lookupA, hk, ih]

theorem mem_of_contains (l : List String) (k : String)
    (h : l.contains k = true) : k ∈ l := by
  by_contra hm
  rw [← contains_false_iff] at hm
  rw [hm] at h
  cases h

theorem lookupA_setAttr_self (a : List (String × String)) (k v : String) :
    lookupA (setAttr a k v) k = some v := by
  unfold setAttr
  by_cases hc : (keysA a).contains k = true
  · rw [if_pos hc]
    exact lookupA_map_set_self a k v (mem_of_contains _ _ hc)
  · rw [if_neg hc, lookupA_append,
      lookupA_eq_none a k ((contains_false_iff _ _).mp (Bool.eq_false_iff.mpr hc))]
    simp [lookupA]

theorem lookupA_setAttr_ne (a : List (String × String)) (k v k' : String)
    (h : k' ≠ k) : lookupA (setAttr a k v) k' = lookupA a k' := by
  unfold setAttr
  by_cases hc : (keysA a).contains k = true
  · rw [if_pos hc]
    exact lookupA_map_set_ne a k v k' h
  · rw [if_neg hc, lookupA_append]
    cases hl : lookupA a k' with
    | some v' => simp
    | none => simp [lookupA, Ne.symm h]

theorem copyAttrs_cons (kv : String × String) (rest dst : List (String × String)) :
    copyAttrs (kv :: rest) dst
      = copyAttrs rest (if kv.1 = hrefKey then dst else setAttr dst kv.1 kv.2) := by
  simp [copyAttrs, List.foldl_cons]

theorem copyAttrs_lookup_of_not_mem (src : List (String × String)) :
    ∀ dst k, k ∉ keysA src → lookupA (copyAttrs src dst) k = lookupA dst k := by
  induction src with
  | nil => intro dst k _; rfl
  | cons kv rest ih =>
    intro dst k h
    rw [keysA_cons] at h
    have h1 : kv.1 ≠ k := fun hk => h (hk ▸ List.mem_cons_self _ _)
    have h2 : k ∉ keysA rest := fun hk => h (List.mem_cons_of_mem _ hk)
    rw [copyAttrs_cons]
    by_cases hh : kv.1 = hrefKey
    · rw [if_pos hh]; exact ih dst k h2
    · rw [if_neg hh, ih _ k h2, lookupA_setAttr_ne _ _ _ _ (fun hx => h1 hx.symm)]

/-- The fold of lines 57-59 never writes the `xlink:href` key. -/
theorem copyAttrs_href (src : List (String × String)) :
    ∀ dst, lookupA (copyAttrs src dst) hrefKey = lookupA dst hrefKey := by
  induction src with
  | nil => intro dst; rfl
  | cons kv rest ih =>
    intro dst
    rw [copyAttrs_cons]
    by_cases hh : kv.1 = hrefKey
    · rw [if_pos hh, ih]
    · rw [if_neg hh, ih, lookupA_setAttr_ne _ _ _ _ (fun hx => hh hx.symm)]

/-- The fold of lines 57-59 gives every non-href source attribute its source
value in the result, overwriting the destination. -/
theorem copyAttrs_overwrites (src : List (String × String)) :
    ∀ dst k v, (keysA src).Nodup → k ≠ hrefKey → lookupA src k = some v →
      lookupA (copyAttrs src dst) k = some v := by
  induction src with
  | nil => intro dst k v _ _ h; simp [lookupA] at h
  | cons kv rest ih =>
    intro dst k v hnd hk hsome
    rw [keysA_cons] at hnd
    have hnd1 : kv.1 ∉ keysA rest := (List.nodup_cons.mp hnd).1
    have hnd2 : (keysA rest).Nodup := (List.nodup_cons.mp hnd).2
    rw [copyAttrs_cons]
    by_cases hkk : kv.1 = k
    · have hv : v = kv.2 := by
        simp [lookupA, hkk] at hsome
        exact hsome.symm
      have hh : kv.1 ≠ hrefKey := fun hx => hk (hkk ▸ hx)
      rw [if_neg hh, copyAttrs_lookup_of_not_mem rest _ k (hkk ▸ hnd1), hv, ← hkk]
      exact lookupA_setAttr_self dst kv.1 kv.2
    · have hsome' : lookupA rest k = some v := by
        simpa [lookupA, hkk] using hsome
      by_cases hh : kv.1 = hrefKey
      · rw [if_pos hh]; exact ih dst k v hnd2 hk hsome'
      · rw [if_neg hh]; exact ih _ k v hnd2 hk hsome'

/-! ## Lemmas: the `.png` → `.svg` substring replacement -/

theorem startsPng_iff (cs : List Char) :
    startsPng cs = true ↔ ∃ r, cs = '.' :: 'p' :: 'n' :: 'g' :: r := by
  match cs with
  | [] => simp [startsPng]
  | [c1] => simp [startsPng]
  | [c1, c2] => simp [startsPng]
  | [c1, c2, c3] => simp [startsPng]
  | c1 :: c2 :: c3 :: c4 :: r =>
    simp only [startsPng, Bool.and_eq_true, beq_iff_eq]
    constructor
    · rintro ⟨⟨⟨h1, h2⟩, h3⟩, h4⟩
      exact ⟨r, by rw [h1, h2, h3, h4]⟩
    · rintro ⟨r', he⟩
      injection he with e1 he
      injection he with e2 he
      injection he with e3 he
      injection he with e4 _
      exact ⟨⟨⟨e1, e2⟩, e3⟩, e4⟩

theorem pngToSvg_not_starts (c : Char) (rest : List Char)
    (h : startsPng (c :: rest) = false) :
    pngToSvg (c :: rest) = c :: pngToSvg rest := by
  rw [pngToSvg.eq_def]
  split
  · next r heq =>
    injection heq with h1 h2
    subst h1
    subst h2
    simp [startsPng] at h
  · next c' rest' hne heq =>
    injection heq with h1 h2
    subst h1
    subst h2
    rfl
  · next heq =>
    exact (List.cons_ne_nil _ _ heq).elim

theorem pngToSvg_eq_self (cs : List Char) (h : hasPng cs = false) :
    pngToSvg cs = cs := by
  induction cs with
  | nil => rfl
  | cons c rest ih =>
    have hor : (startsPng (c :: rest) || hasPng rest) = false := h
    have h1 : startsPng (c :: rest) = false := by
      cases hs : startsPng (c :: rest)
      · rfl
      · rw [hs] at hor; cases hor
    have h2 : hasPng rest = false := by
      cases hs : hasPng rest
      · rfl
      · rw [hs] at hor; simp at hor
    rw [pngToSvg_not_starts c rest h1, ih h2]

theorem hasPng_iff (cs : List Char) :
    hasPng cs = true ↔ ∃ l r, cs = l ++ '.' :: 'p' :: 'n' :: 'g' :: r := by
  induction cs with
  | nil => simp [hasPng]
  | cons c rest ih =>
    have hun : hasPng (c :: rest) = (startsPng (c :: rest) || hasPng rest) := rfl
    rw [hun, Bool.or_eq_true]
    constructor
    · rintro (hs | hr)
      · obtain ⟨r, hr⟩ := (startsPng_iff _).mp hs
        exact ⟨[], r, by rw [hr]; rfl⟩
      · obtain ⟨l, r, he⟩ := ih.mp hr
        exact ⟨c :: l, r, by rw [he]; rfl⟩
    · rintro ⟨l, r, he⟩
      match l, he with
      | [], he =>
        exact Or.inl ((startsPng_iff _).mpr ⟨r, by rw [he]; rfl⟩)
      | x :: l', he =>
        have : rest = l' ++ '.' :: 'p' :: 'n' :: 'g' :: r := by
          injection he
        exact Or.inr (ih.mpr ⟨l', r, this⟩)

/-! ## Claims C2, C3, C4, C7, C8 -/

/-- Claim C2: for an input that is not well-formed markup, the
transformation raises `ParseError` with zero file accesses — the parse on
line 43 precedes every `open` (the access log is empty). -/
theorem claim_C2_parse_error_before_any_file_access (fs : FS) :
    inline_svg_images fs none = (.error .parseError, []) := rfl

/-- Claim C3: every placeholder attribute other than `xlink:href` is copied
onto the referenced root, overwriting an existing same-named attribute
(lines 57-59); attribute dictionaries have pairwise-distinct keys. -/
theorem claim_C3_placeholder_attributes_overwrite
    (img imgroot : Element) (k v : String)
    (hnd : (keysA img.attrib).Nodup) (hk : k ≠ hrefKey)
    (hv : lookupA img.attrib k = some v) :
    lookupA (mergedRoot img imgroot).attrib k = some v := by
  cases imgroot with
  | mk u t a cs =>
    exact copyAttrs_overwrites img.attrib a k v hnd hk hv

theorem claim_C3_witness :
    (keysA (Element.mk 2 imageTag [("width", "10")] []).attrib).Nodup ∧
    "width" ≠ hrefKey ∧
    lookupA (mergedRoot (.mk 2 imageTag [("width", "10")] [])
        (.mk 0 (qn svgNS "svg") [("width", "5")] [])).attrib "width"
      = some "10" :=
  ⟨by decide, by decide,
    claim_C3_placeholder_attributes_overwrite
      (.mk 2 imageTag [("width", "10")] [])
      (.mk 0 (qn svgNS "svg") [("width", "5")] []) "width" "10"
      (by decide) (by decide) (by decide)⟩

/-- Claim C4: the `xlink:href` attribute is never copied onto the spliced-in
root — after the merge of lines 57-59 the root's `href` binding is exactly
the binding the referenced root already had. -/
theorem claim_C4_href_never_copied (img imgroot : Element) :
    lookupA (mergedRoot img imgroot).attrib hrefKey
      = lookupA imgroot.attrib hrefKey := by
  cases imgroot with
  | mk u t a cs =>
    exact copyAttrs_href img.attrib a

/-- Claim C7: with zero placeholder matches the loop body never runs — no
file is opened (empty access log) and the output is the serialization of
the parsed input unchanged. -/
theorem claim_C7_no_matches_round_trip (fs : FS) (root : Element)
    (h : image_tags root = []) :
    inline_svg_images fs (some root) = (.ok (tostring root), []) := by
  simp [inline_svg_images, inlineRoot, h, processImgs, Except.map]

theorem claim_C7_witness :
    image_tags (.mk 0 "foo" [] []) = [] ∧
    inline_svg_images [] (some (.mk 0 "foo" [] []))
      = (.ok (tostring (.mk 0 "foo" [] [])), []) :=
  ⟨by decide, claim_C7_no_matches_round_trip [] (.mk 0 "foo" [] []) (by decide)⟩

/-- Claim C8: the path handed to `open` for a placeholder is exactly
`filename.replace('.png', '.svg')` of its `xlink:href` value (lines 51-54),
and when `".png"` does not occur as a substring the replacement is the
identity. -/
theorem claim_C8_path_derivation (fs : FS) (pm : List (Nat × Nat))
    (img : Element) (rest : List Element) (tree : Element) (ctr : Nat)
    (fn : String) (h : lookupA img.attrib hrefKey = some fn) :
    (processImgs fs pm (img :: rest) tree ctr).2.head?
        = some (replacePngSvg fn) ∧
    ((¬ ∃ l r, fn.data = l ++ '.' :: 'p' :: 'n' :: 'g' :: r) →
        replacePngSvg fn = fn) := by
  constructor
  · cases hfs : fsLookup fs (replacePngSvg fn) with
    | none => simp [processImgs, h, hfs]
    | some o =>
      cases o with
      | none => simp [processImgs, h, hfs]
      | some stored =>
        cases hpm : parentLookup pm img.uid with
        | none => simp [processImgs, h, hfs, hpm]
        | some pu => simp [processImgs, h, hfs, hpm]
  · intro hno
    have hfalse : hasPng fn.data = false := by
      cases hp : hasPng fn.data
      · rfl
      · exact absurd ((hasPng_iff fn.data).mp hp) hno
    show (⟨pngToSvg fn.data⟩ : String) = fn
    rw [pngToSvg_eq_self _ hfalse]

theorem claim_C8_witness :
    (processImgs [] [] [.mk 0 imageTag [(hrefKey, "a.png")] []]
        (.mk 1 "r" [] []) 5).2.head? = some (replacePngSvg "a.png") ∧
    ((¬ ∃ l r, ("a.png" : String).data = l ++ '.' :: 'p' :: 'n' :: 'g' :: r) →
        replacePngSvg "a.png" = "a.png") :=
  claim_C8_path_derivation [] [] (.mk 0 imageTag [(hrefKey, "a.png")] []) []
    (.mk 1 "r" [] []) 5 "a.png" (by decide)

/-! ## Lemmas: loop control flow

Which placeholder iteration fails — and with which error — depends only on
the placeholder attributes, the filesystem and the static parent map, so
the loop's error behaviour is fully described by `firstFailure`. -/

theorem processImgs_error_of_firstFailure (fs : FS) (pm : List (Nat × Nat)) :
    ∀ imgs tree ctr e, firstFailure fs pm imgs = some e →
      (processImgs fs pm imgs tree ctr).1 = .error e := by
  intro imgs
  induction imgs with
  | nil => intro tree ctr e h; simp [firstFailure] at h
  | cons img rest ih =>
    intro tree ctr e h
    cases hl : lookupA img.attrib hrefKey with
    | none =>
      have he : e = .keyError := by
        simp [firstFailure, stepOutcome, hl] at h
        exact h.symm
      simp [processImgs, hl, he]
    | some fn =>
      cases hfs : fsLookup fs (replacePngSvg fn) with
      | none =>
        have he : e = .fileAccessError := by
          simp [firstFailure, stepOutcome, hl, hfs] at h
          exact h.symm
        simp [processImgs, hl, hfs, he]
      | some o =>
        cases o with
        | none =>
          have he : e = .parseError := by
            simp [firstFailure, stepOutcome, hl, hfs] at h
            exact h.symm
          simp [processImgs, hl, hfs, he]
        | some stored =>
          cases hpm : parentLookup pm img.uid with
          | none =>
            have he : e = .keyError := by
              simp [firstFailure, stepOutcome, hl, hfs, hpm] at h
              exact h.symm
            simp [processImgs, hl, hfs, hpm, he]
          | some pu =>
            have h' : firstFailure fs pm rest = some e := by
              simpa [firstFailure, stepOutcome, hl, hfs, hpm] using h
            simp only [processImgs, hl, hfs, hpm]
            exact ih _ _ e h'

theorem processImgs_ok_of_noFailure (fs : FS) (pm : List (Nat × Nat)) :
    ∀ imgs tree ctr, firstFailure fs pm imgs = none →
      ∃ p, (processImgs fs pm imgs tree ctr).1 = .ok p := by
  intro imgs
  induction imgs with
  | nil => intro tree ctr _; exact ⟨_, rfl⟩
  | cons img rest ih =>
    intro tree ctr h
    cases hl : lookupA img.attrib hrefKey with
    | none => simp [firstFailure, stepOutcome, hl] at h
    | some fn =>
      cases hfs : fsLookup fs (replacePngSvg fn) with
      | none => simp [firstFailure, stepOutcome, hl, hfs] at h
      | some o =>
        cases o with
        | none => simp [firstFailure, stepOutcome, hl, hfs] at h
        | some stored =>
          cases hpm : parentLookup pm img.uid with
          | none => simp [firstFailure, stepOutcome, hl, hfs, hpm] at h
          | some pu =>
            have h' : firstFailure fs pm rest = none := by
              simpa [firstFailure, stepOutcome, hl, hfs, hpm] using h
            simp only [processImgs, hl, hfs, hpm]
            exact ih _ _ h'

/-! ## Claim C1 -/

/-- Claim C1 counterexample: a placeholder whose referenced file opens but
is not well-formed markup makes `inline` raise `ParseError` (from
`ET.fromstring` on line 56), not `FileAccessError` as the claim states. -/
theorem claim_C1_counterexample :
    inline_svg_images [("a.svg", (none : Option Element))]
        (some (.mk 0 (qn svgNS "svg") []
          [.mk 1 gTag [] [.mk 2 imageTag [(hrefKey, "a.png")] []]]))
      = (.error .parseError, ["a.svg"]) ∧
    InlineError.parseError ≠ InlineError.fileAccessError := by
  exact ⟨rfl, by decide⟩

/-- Claim C1 (amended): when a placeholder's resolution fails, the whole
operation aborts with no output string; the error of the first failing
placeholder is `FileAccessError` when its file cannot be opened, but
`ParseError` when the file opens and is not well-formed markup. -/
theorem claim_C1_amended (fs : FS) (root : Element) (e : InlineError)
    (h : firstFailure fs (parentEntries root) (image_tags root) = some e) :
    (inline_svg_images fs (some root)).1 = .error e ∧
    (∀ s, (inline_svg_images fs (some root)).1 ≠ .ok s) ∧
    (∀ img fn, lookupA img.attrib hrefKey = some fn →
      (fsLookup fs (replacePngSvg fn) = none →
        stepOutcome fs (parentEntries root) img = some .fileAccessError) ∧
      (fsLookup fs (replacePngSvg fn) = some none →
        stepOutcome fs (parentEntries root) img = some .parseError)) := by
  have h1 : (inline_svg_images fs (some root)).1 = .error e := by
    simp only [inline_svg_images, inlineRoot]
    rw [processImgs_error_of_firstFailure fs (parentEntries root)
      (image_tags root) root (maxUid root + 1) e h]
    rfl
  refine ⟨h1, ?_, ?_⟩
  · intro s hs
    rw [h1] at hs
    cases hs
  · intro img fn hfn
    constructor
    · intro hfs
      simp [stepOutcome, hfn, hfs]
    · intro hfs
      simp [stepOutcome, hfn, hfs]

theorem claim_C1_witness :
    firstFailure [] (parentEntries (.mk 0 (qn svgNS "svg") []
        [.mk 1 gTag [] [.mk 2 imageTag [(hrefKey, "b.png")] []]]))
      (image_tags (.mk 0 (qn svgNS "svg") []
        [.mk 1 gTag [] [.mk 2 imageTag [(hrefKey, "b.png")] []]]))
      = some .fileAccessError ∧
    (inline_svg_images [] (some (.mk 0 (qn svgNS "svg") []
        [.mk 1 gTag [] [.mk 2 imageTag [(hrefKey, "b.png")] []]]))).1
      = .error .fileAccessError :=
  ⟨by decide,
    (claim_C1_amended [] (.mk 0 (qn svgNS "svg") []
      [.mk 1 gTag [] [.mk 2 imageTag [(hrefKey, "b.png")] []]])
      .fileAccessError (by decide)).1⟩

/-! ## Claim C9 -/

theorem assignAliases_mem_registered :
    ∀ (l : List String) (n : Nat) (uri pr : String),
      lookupA registeredNS uri = some pr → uri ∈ l →
      (pr, uri) ∈ assignAliases l n := by
  intro l
  induction l with
  | nil => intro n uri pr _ hm; simp at hm
  | cons u0 rest ih =>
    intro n uri pr hreg hm
    by_cases he : u0 = uri
    · subst he
      simp [assignAliases, hreg]
    · have hm' : uri ∈ rest := by
        rcases List.mem_cons.mp hm with hx | hx
        · exact absurd hx.symm he
        · exact hx
      cases hr0 : lookupA registeredNS u0 with
      | none =>
        simp only [assignAliases, hr0]
        exact List.mem_cons_of_mem _ (ih (n + 1) uri pr hreg hm')
      | some pr0 =>
        simp only [assignAliases, hr0]
        exact List.mem_cons_of_mem _ (ih (n + 1) uri pr hreg hm')

theorem assignAliases_sound :
    ∀ (l : List String) (n : Nat) (pr uri : String),
      (pr, uri) ∈ assignAliases l n → uri ∈ l := by
  intro l
  induction l with
  | nil => intro n pr uri hm; simp [assignAliases] at hm
  | cons u0 rest ih =>
    intro n pr uri hm
    cases hr0 : lookupA registeredNS u0 with
    | none =>
      rw [assignAliases, hr0] at hm
      rcases List.mem_cons.mp hm with hx | hx
      · rw [Prod.mk.injEq] at hx
        exact hx.2 ▸ List.mem_cons_self _ _
      · exact List.mem_cons_of_mem _ (ih (n + 1) pr uri hx)
    | some pr0 =>
      rw [assignAliases, hr0] at hm
      rcases List.mem_cons.mp hm with hx | hx
      · rw [Prod.mk.injEq] at hx
        exact hx.2 ▸ List.mem_cons_self _ _
      · exact List.mem_cons_of_mem _ (ih (n + 1) pr uri hx)

/-- Claim C9 counterexample: a successful transformation of a document that
uses no namespaces at all produces an output string with no `xmlns`
declaration whatsoever — the two namespaces are not unconditionally
declared. -/
theorem claim_C9_counterexample :
    (inline_svg_images [] (some (.mk 0 "foo" [] []))).1 = .ok "<foo />" ∧
    containsSeq "xmlns".data "<foo />".data = false := by
  exact ⟨rfl, rfl⟩

/-- Claim C9 (amended): the output of a successful transformation is the
serialization of the final tree, on whose root exactly the namespaces the
tree actually uses are declared — with the fixed aliases: no alias for the
vector-graphics namespace and `xlink` for the cross-reference namespace
(lines 67-69). -/
theorem claim_C9_amended (fs : FS) (root t : Element) (log : List String)
    (h : inlineRoot fs root = (.ok t, log)) :
    inline_svg_images fs (some root) = (.ok (tostring t), log) ∧
    (svgNS ∈ usedNamespaces t → ("", svgNS) ∈ rootNsDecls t) ∧
    (xlinkNS ∈ usedNamespaces t → ("xlink", xlinkNS) ∈ rootNsDecls t) ∧
    (∀ pr uri, (pr, uri) ∈ rootNsDecls t → uri ∈ usedNamespaces t) := by
  refine ⟨?_, ?_, ?_, ?_⟩
  · simp only [inline_svg_images]
    rw [h]
    rfl
  · intro hm
    exact assignAliases_mem_registered (usedNamespaces t) 0 svgNS "" (by decide) hm
  · intro hm
    exact assignAliases_mem_registered (usedNamespaces t) 0 xlinkNS "xlink"
      (by decide) hm
  · intro pr uri hm
    exact assignAliases_sound (usedNamespaces t) 0 pr uri hm

theorem claim_C9_witness :
    inlineRoot [] (.mk 0 (qn svgNS "svg") [] [])
      = (.ok (.mk 0 (qn svgNS "svg") [] []), []) ∧
    inline_svg_images [] (some (.mk 0 (qn svgNS "svg") [] []))
      = (.ok (tostring (.mk 0 (qn svgNS "svg") [] [])), []) :=
  ⟨rfl,
    (claim_C9_amended [] (.mk 0 (qn svgNS "svg") [] [])
      (.mk 0 (qn svgNS "svg") [] []) [] rfl).1⟩

/-! ## Lemmas: document-order membership and uids -/

theorem mem_preorderL_of_mem :
    ∀ (cs : List Element) (m x : Element), m ∈ cs → x ∈ preorder m →
      x ∈ preorderL cs := by
  intro cs
  induction cs with
  | nil => intro m x h _; simp at h
  | cons c cs ih =>
    intro m x hm hx
    rw [preorderL_cons]
    rcases List.mem_cons.mp hm with h | h
    · subst h; exact List.mem_append_left _ hx
    · exact List.mem_append_right _ (ih m x h hx)

theorem exists_mem_of_mem_preorderL :
    ∀ (cs : List Element) (x : Element), x ∈ preorderL cs →
      ∃ m, m ∈ cs ∧ x ∈ preorder m := by
  intro cs
  induction cs with
  | nil => intro x h; simp [preorderL] at h
  | cons c cs ih =>
    intro x hx
    rw [preorderL_cons] at hx
    rcases List.mem_append.mp hx with h | h
    · exact ⟨c, List.mem_cons_self _ _, h⟩
    · obtain ⟨m, hm, hxm⟩ := ih x h
      exact ⟨m, List.mem_cons_of_mem _ hm, hxm⟩

theorem mem_preorder_cases (e x : Element) (h : x ∈ preorder e) :
    x = e ∨ x ∈ preorderL e.children := by
  cases e with
  | mk v tg a cs => exact List.mem_cons.mp h

mutual

theorem child_mem_E : ∀ (t : Element) (p c : Element),
    p ∈ preorder t → c ∈ p.children → c ∈ preorder t
  | .mk v tg a cs, p, c => by
    intro hp hc
    rcases mem_preorder_cases _ _ hp with h | h
    · subst h
      exact List.mem_cons_of_mem _
        (mem_preorderL_of_mem cs c c hc (self_mem_preorder c))
    · exact List.mem_cons_of_mem _ (child_mem_L cs p c h hc)

theorem child_mem_L : ∀ (cs : List Element) (p c : Element),
    p ∈ preorderL cs → c ∈ p.children → c ∈ preorderL cs
  | [], p, c => by intro hp _; simp [preorderL] at hp
  | c0 :: cs, p, c => by
    intro hp hc
    rw [preorderL_cons] at hp ⊢
    rcases List.mem_append.mp hp with h | h
    · exact List.mem_append_left _ (child_mem_E c0 p c h hc)
    · exact List.mem_append_right _ (child_mem_L cs p c h hc)

end

mutual

theorem preorder_trans_E : ∀ (t x y : Element),
    y ∈ preorder t → x ∈ preorder y → x ∈ preorder t
  | .mk v tg a cs, x, y => by
    intro hy hx
    rcases mem_preorder_cases _ _ hy with h | h
    · subst h; exact hx
    · exact List.mem_cons_of_mem _ (preorder_trans_L cs x y h hx)

theorem preorder_trans_L : ∀ (cs : List Element) (x y : Element),
    y ∈ preorderL cs → x ∈ preorder y → x ∈ preorderL cs
  | [], x, y => by intro hy _; simp [preorderL] at hy
  | c0 :: cs, x, y => by
    intro hy hx
    rw [preorderL_cons] at hy ⊢
    rcases List.mem_append.mp hy with h | h
    · exact List.mem_append_left _ (preorder_trans_E c0 x y h hx)
    · exact List.mem_append_right _ (preorder_trans_L cs x y h hx)

end

theorem uid_mem_uidsE (t x : Element) (h : x ∈ preorder t) :
    x.uid ∈ uidsE t := List.mem_map_of_mem _ h

theorem uid_mem_uidsL (cs : List Element) (x : Element) (h : x ∈ preorderL cs) :
    x.uid ∈ uidsL cs := List.mem_map_of_mem _ h

theorem uid_child_mem (cs : List Element) (c : Element) (h : c ∈ cs) :
    c.uid ∈ uidsL cs :=
  uid_mem_uidsL cs c (mem_preorderL_of_mem cs c c h (self_mem_preorder c))

mutual

theorem nodup_sub_E : ∀ (t x : Element),
    x ∈ preorder t → (uidsE t).Nodup → (uidsE x).Nodup
  | .mk v tg a cs, x => by
    intro hx hnd
    rcases mem_preorder_cases _ _ hx with h | h
    · subst h; exact hnd
    · rw [uidsE_def] at hnd
      exact nodup_sub_L cs x h (List.nodup_cons.mp hnd).2

theorem nodup_sub_L : ∀ (cs : List Element) (x : Element),
    x ∈ preorderL cs → (uidsL cs).Nodup → (uidsE x).Nodup
  | [], x => by intro hx _; simp [preorderL] at hx
  | c0 :: cs, x => by
    intro hx hnd
    rw [preorderL_cons] at hx
    rw [uidsL_cons] at hnd
    rcases List.mem_append.mp hx with h | h
    · exact nodup_sub_E c0 x h (List.nodup_append.mp hnd).1
    · exact nodup_sub_L cs x h (List.nodup_append.mp hnd).2.1

end

theorem uid_inj_preorder (t : Element) (hnd : (uidsE t).Nodup)
    (x y : Element) (hx : x ∈ preorder t) (hy : y ∈ preorder t)
    (h : x.uid = y.uid) : x = y :=
  List.inj_on_of_nodup_map hnd hx hy h

/-! ## Lemmas: the children-update operation -/

theorem updE_mk (pu : Nat) (f : List Element → List Element)
    (v : Nat) (tg : String) (a : List (String × String)) (cs : List Element) :
    updE pu f (.mk v tg a cs)
      = if v = pu then Element.mk v tg a (f (updL pu f cs))
        else Element.mk v tg a (updL pu f cs) := rfl

theorem updE_uid (pu : Nat) (f : List Element → List Element) (e : Element) :
    (updE pu f e).uid = e.uid := by
  cases e with
  | mk v tg a cs =>
    rw [updE_mk]
    split <;> rfl

theorem updE_tag (pu : Nat) (f : List Element → List Element) (e : Element) :
    (updE pu f e).tag = e.tag := by
  cases e with
  | mk v tg a cs =>
    rw [updE_mk]
    split <;> rfl

theorem updE_attrib (pu : Nat) (f : List Element → List Element) (e : Element) :
    (updE pu f e).attrib = e.attrib := by
  cases e with
  | mk v tg a cs =>
    rw [updE_mk]
    split <;> rfl

theorem updL_eq_map (pu : Nat) (f : List Element → List Element) :
    ∀ cs : List Element, updL pu f cs = cs.map (updE pu f) := by
  intro cs
  induction cs with
  | nil => rfl
  | cons c cs ih => rw [updL, ih]; rfl

mutual

theorem updE_not_mem (pu : Nat) (f : List Element → List Element) :
    ∀ e : Element, pu ∉ uidsE e → updE pu f e = e
  | .mk v tg a cs => by
    intro h
    rw [uidsE_def] at h
    simp only [Element.uid, Element.children] at h
    have h1 : ¬v = pu := fun hx => h (hx ▸ List.mem_cons_self _ _)
    have h2 : pu ∉ uidsL cs := fun hx => h (List.mem_cons_of_mem _ hx)
    rw [updE_mk, if_neg h1, updL_not_mem pu f cs h2]

theorem updL_not_mem (pu : Nat) (f : List Element → List Element) :
    ∀ cs : List Element, pu ∉ uidsL cs → updL pu f cs = cs
  | [] => fun _ => rfl
  | c :: cs => by
    intro h
    rw [uidsL_cons] at h
    have h1 : pu ∉ uidsE c := fun hx => h (List.mem_append_left _ hx)
    have h2 : pu ∉ uidsL cs := fun hx => h (List.mem_append_right _ hx)
    rw [updL, updE_not_mem pu f c h1, updL_not_mem pu f cs h2]

end

/-! ## Lemmas: locating a node by uid -/

def nodeAtL (cs : List Element) (u : Nat) : Option Element :=
  (preorderL cs).find? (fun e => e.uid == u)

theorem nodeAt_mk (pu : Nat) (v : Nat) (tg : String)
    (a : List (String × String)) (cs : List Element) :
    nodeAt (.mk v tg a cs) pu
      = if v = pu then some (.mk v tg a cs) else nodeAtL cs pu := by
  unfold nodeAt nodeAtL
  rw [preorder_mk, List.find?_cons]
  by_cases hv : v = pu
  · subst hv
    simp [Element.uid]
  · have hb : ((Element.mk v tg a cs).uid == pu) = false := by
      simp [Element.uid, hv]
    rw [hb, if_neg hv]

theorem nodeAtL_nil (pu : Nat) : nodeAtL [] pu = none := rfl

theorem nodeAtL_cons (pu : Nat) (c : Element) (cs : List Element) :
    nodeAtL (c :: cs) pu = (nodeAt c pu).or (nodeAtL cs pu) := by
  unfold nodeAt nodeAtL
  rw [preorderL_cons, List.find?_append]

theorem nodeAt_none (e : Element) (pu : Nat) (h : pu ∉ uidsE e) :
    nodeAt e pu = none := by
  unfold nodeAt
  rw [List.find?_eq_none]
  intro x hx hbeq
  exact h (beq_iff_eq.mp hbeq ▸ uid_mem_uidsE e x hx)

theorem nodeAtL_none (cs : List Element) (pu : Nat) (h : pu ∉ uidsL cs) :
    nodeAtL cs pu = none := by
  unfold nodeAtL
  rw [List.find?_eq_none]
  intro x hx hbeq
  exact h (beq_iff_eq.mp hbeq ▸ uid_mem_uidsL cs x hx)

theorem nodeAt_props (e : Element) (pu : Nat) (p : Element)
    (h : nodeAt e pu = some p) : p ∈ preorder e ∧ p.uid = pu := by
  unfold nodeAt at h
  have h2 := List.find?_some h
  simp only [beq_iff_eq] at h2
  exact ⟨List.mem_of_find?_eq_some h, h2⟩

theorem nodeAtL_props (cs : List Element) (pu : Nat) (p : Element)
    (h : nodeAtL cs pu = some p) : p ∈ preorderL cs ∧ p.uid = pu := by
  unfold nodeAtL at h
  have h2 := List.find?_some h
  simp only [beq_iff_eq] at h2
  exact ⟨List.mem_of_find?_eq_some h, h2⟩

theorem nodeAt_exists (e : Element) (pu : Nat) (h : pu ∈ uidsE e) :
    ∃ p, nodeAt e pu = some p := by
  cases hn : nodeAt e pu with
  | some p => exact ⟨p, rfl⟩
  | none =>
    unfold nodeAt at hn
    rw [List.find?_eq_none] at hn
    obtain ⟨x, hx, hux⟩ := List.mem_map.mp h
    exact absurd (beq_iff_eq.mpr hux) (hn x hx)

theorem nodeAtL_exists (cs : List Element) (pu : Nat) (h : pu ∈ uidsL cs) :
    ∃ p, nodeAtL cs pu = some p := by
  cases hn : nodeAtL cs pu with
  | some p => exact ⟨p, rfl⟩
  | none =>
    unfold nodeAtL at hn
    rw [List.find?_eq_none] at hn
    obtain ⟨x, hx, hux⟩ := List.mem_map.mp h
    exact absurd (beq_iff_eq.mpr hux) (hn x hx)

theorem nodeAt_eq_of_mem (t : Element) (hnd : (uidsE t).Nodup)
    (q : Element) (hq : q ∈ preorder t) (pu : Nat) (hqu : q.uid = pu) :
    nodeAt t pu = some q := by
  obtain ⟨p, hp⟩ := nodeAt_exists t pu (hqu ▸ uid_mem_uidsE t q hq)
  obtain ⟨hpm, hpu⟩ := nodeAt_props t pu p hp
  rw [hp, uid_inj_preorder t hnd p q hpm hq (by rw [hpu, hqu])]

theorem nodeAtL_eq_of_mem (cs : List Element) (hnd : (uidsL cs).Nodup)
    (q : Element) (hq : q ∈ preorderL cs) (pu : Nat) (hqu : q.uid = pu) :
    nodeAtL cs pu = some q := by
  obtain ⟨p, hp⟩ := nodeAtL_exists cs pu (hqu ▸ uid_mem_uidsL cs q hq)
  obtain ⟨hpm, hpu⟩ := nodeAtL_props cs pu p hp
  rw [hp, List.inj_on_of_nodup_map hnd hpm hq (by rw [hpu, hqu])]

theorem nodup_uidsL_cons_iff (c : Element) (cs : List Element) :
    (uidsL (c :: cs)).Nodup ↔
      (uidsE c).Nodup ∧ (uidsL cs).Nodup ∧ (uidsE c).Disjoint (uidsL cs) := by
  rw [uidsL_cons, List.nodup_append]

theorem nodup_uidsE_parts (v : Nat) (tg : String)
    (a : List (String × String)) (cs : List Element)
    (h : (uidsE (.mk v tg a cs)).Nodup) :
    v ∉ uidsL cs ∧ (uidsL cs).Nodup := by
  rw [uidsE_def] at h
  simp only [Element.uid, Element.children] at h
  exact ⟨(List.nodup_cons.mp h).1, (List.nodup_cons.mp h).2⟩

mutual

theorem nodeAt_updE (pu : Nat) (f : List Element → List Element) :
    ∀ (t : Element), (uidsE t).Nodup → ∀ p, nodeAt t pu = some p →
      nodeAt (updE pu f t) pu = some (.mk pu p.tag p.attrib (f p.children))
  | .mk v tg a cs => by
    intro hnd p hp
    rw [nodeAt_mk] at hp
    by_cases hv : v = pu
    · rw [if_pos hv] at hp
      injection hp with hp
      subst hp
      have hcs : updL pu f cs = cs := by
        refine updL_not_mem pu f cs ?_
        have := (nodup_uidsE_parts v tg a cs hnd).1
        rw [hv] at this
        exact this
      rw [updE_mk, if_pos hv, hcs, nodeAt_mk, if_pos hv, hv]
      rfl
    · rw [if_neg hv] at hp
      rw [updE_mk, if_neg hv, nodeAt_mk, if_neg hv]
      exact nodeAtL_updL pu f cs (nodup_uidsE_parts v tg a cs hnd).2 p hp

theorem nodeAtL_updL (pu : Nat) (f : List Element → List Element) :
    ∀ (cs : List Element), (uidsL cs).Nodup → ∀ p, nodeAtL cs pu = some p →
      nodeAtL (updL pu f cs) pu = some (.mk pu p.tag p.attrib (f p.children))
  | [] => by intro _ p hp; rw [nodeAtL_nil] at hp; cases hp
  | c :: cs => by
    intro hnd p hp
    obtain ⟨hnd1, hnd2, hdisj⟩ := (nodup_uidsL_cons_iff c cs).mp hnd
    rw [nodeAtL_cons] at hp
    rw [updL, nodeAtL_cons]
    cases hc : nodeAt c pu with
    | some q =>
      rw [hc] at hp
      simp only [Option.or] at hp
      injection hp with hp
      subst hp
      rw [nodeAt_updE pu f c hnd1 q hc]
      rfl
    | none =>
      rw [hc] at hp
      simp only [Option.or] at hp
      have hnm : pu ∉ uidsE c := by
        intro hmem
        obtain ⟨q, hq⟩ := nodeAt_exists c pu hmem
        rw [hq] at hc
        cases hc
      rw [updE_not_mem pu f c hnm, hc]
      simp only [Option.or]
      exact nodeAtL_updL pu f cs hnd2 p hp

end

/-! ## Lemmas: weighted node counts -/

theorem wcountE_mk (w : Weight) (pt : Option String) (v : Nat) (tg : String)
    (a : List (String × String)) (cs : List Element) :
    wcountE w pt (.mk v tg a cs)
      = w pt (.mk v tg a cs) + wcountL w (some tg) cs := rfl

theorem wcountL_nil (w : Weight) (pt : Option String) : wcountL w pt [] = 0 := rfl

theorem wcountL_cons (w : Weight) (pt : Option String) (c : Element)
    (cs : List Element) :
    wcountL w pt (c :: cs) = wcountE w pt c + wcountL w pt cs := rfl

theorem wcountL_append (w : Weight) (pt : Option String) :
    ∀ l1 l2 : List Element,
      wcountL w pt (l1 ++ l2) = wcountL w pt l1 + wcountL w pt l2 := by
  intro l1 l2
  induction l1 with
  | nil => simp [wcountL_nil]
  | cons c cs ih =>
    rw [List.cons_append, wcountL_cons, wcountL_cons, ih]
    omega

mutual

/-- The children rewrite at the unique node with uid `pu` changes the total
weight of the tree by exactly the weight change of that node's child list,
provided the weight of every rewritten node is unchanged (`hw`). -/
theorem wcount_updE (w : Weight) (pu : Nat) (f : List Element → List Element)
    (hw : ∀ pt e, pu ∈ uidsE e → w pt (updE pu f e) = w pt e) :
    ∀ (e : Element) (pt : Option String), (uidsE e).Nodup →
      ∀ p, nodeAt e pu = some p →
      wcountE w pt (updE pu f e) + wcountL w (some p.tag) p.children
        = wcountE w pt e + wcountL w (some p.tag) (f p.children)
  | .mk v tg a cs => by
    intro pt hnd p hp
    rw [nodeAt_mk] at hp
    by_cases hv : v = pu
    · rw [if_pos hv] at hp
      injection hp with hp
      subst hp
      have hvmem : pu ∈ uidsE (Element.mk v tg a cs) := by
        rw [uidsE_def]
        exact hv ▸ List.mem_cons_self _ _
      have hcs : updL pu f cs = cs := by
        refine updL_not_mem pu f cs ?_
        have := (nodup_uidsE_parts v tg a cs hnd).1
        rw [hv] at this
        exact this
      have hww := hw pt (Element.mk v tg a cs) hvmem
      rw [updE_mk, if_pos hv, hcs] at hww ⊢
      simp only [Element.tag, Element.children]
      rw [wcountE_mk, wcountE_mk, hww]
      omega
    · rw [if_neg hv] at hp
      have hpumem : pu ∈ uidsE (Element.mk v tg a cs) := by
        rw [uidsE_def]
        refine List.mem_cons_of_mem _ ?_
        obtain ⟨hpm, hpu⟩ := nodeAtL_props cs pu p hp
        exact hpu ▸ uid_mem_uidsL cs p hpm
      have hww := hw pt (Element.mk v tg a cs) hpumem
      rw [updE_mk, if_neg hv] at hww ⊢
      rw [wcountE_mk, wcountE_mk, hww]
      have hrec := wcount_updL w pu f hw cs (some tg)
        (nodup_uidsE_parts v tg a cs hnd).2 p hp
      omega

theorem wcount_updL (w : Weight) (pu : Nat) (f : List Element → List Element)
    (hw : ∀ pt e, pu ∈ uidsE e → w pt (updE pu f e) = w pt e) :
    ∀ (cs : List Element) (pt : Option String), (uidsL cs).Nodup →
      ∀ p, nodeAtL cs pu = some p →
      wcountL w pt (updL pu f cs) + wcountL w (some p.tag) p.children
        = wcountL w pt cs + wcountL w (some p.tag) (f p.children)
  | [] => by
    intro pt _ p hp
    rw [nodeAtL_nil] at hp
    cases hp
  | c :: cs => by
    intro pt hnd p hp
    obtain ⟨hnd1, hnd2, hdisj⟩ := (nodup_uidsL_cons_iff c cs).mp hnd
    rw [nodeAtL_cons] at hp
    rw [updL, wcountL_cons, wcountL_cons]
    cases hc : nodeAt c pu with
    | some q =>
      rw [hc] at hp
      simp only [Option.or] at hp
      injection hp with hp
      subst hp
      have hpu : pu ∈ uidsE c := by
        obtain ⟨hqm, hqu⟩ := nodeAt_props c pu q hc
        exact hqu ▸ uid_mem_uidsE c q hqm
      have hcs : updL pu f cs = cs :=
        updL_not_mem pu f cs (fun hx => hdisj hpu hx)
      rw [hcs]
      have hrec := wcount_updE w pu f hw c pt hnd1 q hc
      omega
    | none =>
      rw [hc] at hp
      simp only [Option.or] at hp
      have hnm : pu ∉ uidsE c := by
        intro hmem
        obtain ⟨q, hq⟩ := nodeAt_exists c pu hmem
        rw [hq] at hc
        cases hc
      rw [updE_not_mem pu f c hnm]
      have hrec := wcount_updL w pu f hw cs pt hnd2 p hp
      omega

end

theorem removeFirstUid_append_left :
    ∀ (cs l2 : List Element) (u : Nat), (∃ c ∈ cs, c.uid = u) →
      removeFirstUid (cs ++ l2) u = removeFirstUid cs u ++ l2 := by
  intro cs
  induction cs with
  | nil => intro l2 u h; simp at h
  | cons c cs ih =>
    intro l2 u h
    by_cases hcu : c.uid = u
    · rw [List.cons_append, removeFirstUid, if_pos hcu, removeFirstUid,
        if_pos hcu]
    · obtain ⟨c', hc', hcu'⟩ := h
      have hc'' : c' ∈ cs := by
        rcases List.mem_cons.mp hc' with hx | hx
        · exact absurd (hx ▸ hcu') hcu
        · exact hx
      rw [List.cons_append, removeFirstUid, if_neg hcu, removeFirstUid,
        if_neg hcu, ih l2 u ⟨c', hc'', hcu'⟩, List.cons_append]

theorem wcount_removeFirst (w : Weight) (tg : Option String) :
    ∀ (cs : List Element) (u : Nat) (img : Element),
      img ∈ cs → img.uid = u → (cs.map Element.uid).Nodup →
      wcountL w tg (removeFirstUid cs u) + wcountE w tg img
        = wcountL w tg cs := by
  intro cs
  induction cs with
  | nil => intro u img h; simp at h
  | cons c cs ih =>
    intro u img hmem huid hnd
    rw [List.map_cons, List.nodup_cons] at hnd
    by_cases hcu : c.uid = u
    · have himg : img = c := by
        rcases List.mem_cons.mp hmem with hx | hx
        · exact hx
        · refine absurd ?_ hnd.1
          have hm := List.mem_map_of_mem Element.uid hx
          rw [huid, ← hcu] at hm
          exact hm
      subst himg
      rw [removeFirstUid, if_pos hcu, wcountL_cons]
      omega
    · have himg : img ∈ cs := by
        rcases List.mem_cons.mp hmem with hx | hx
        · exact absurd (hx ▸ huid) hcu
        · exact hx
      rw [removeFirstUid, if_neg hcu, wcountL_cons, wcountL_cons,
        ← ih u img himg huid hnd.2]
      omega

/-- The append-then-remove splice (lines 63-64): total child-list weight
loses exactly the removed placeholder's subtree and gains exactly the
spliced root's subtree. -/
theorem wcount_splice (w : Weight) (tg : Option String)
    (cs : List Element) (u : Nat) (r img : Element)
    (hmem : img ∈ cs) (huid : img.uid = u)
    (hnd : (cs.map Element.uid).Nodup) :
    wcountL w tg (spliceChildren cs u r) + wcountE w tg img
      = wcountL w tg cs + wcountE w tg r := by
  unfold spliceChildren
  rw [removeFirstUid_append_left cs [r] u ⟨img, hmem, huid⟩,
    wcountL_append, wcountL_cons, wcountL_nil]
  have h1 := wcount_removeFirst w tg cs u img hmem huid hnd
  omega

mutual

theorem mem_uids_updE (pu : Nat) (f : List Element → List Element) :
    ∀ e : Element, pu ∈ uidsE e → pu ∈ uidsE (updE pu f e)
  | .mk v tg a cs => by
    intro h
    rw [uidsE_def] at h
    simp only [Element.uid, Element.children] at h
    by_cases hv : v = pu
    · rw [updE_mk, if_pos hv, uidsE_def]
      exact hv ▸ List.mem_cons_self _ _
    · have h2 : pu ∈ uidsL cs := by
        rcases List.mem_cons.mp h with hx | hx
        · exact absurd hx.symm hv
        · exact hx
      rw [updE_mk, if_neg hv, uidsE_def]
      simp only [Element.uid, Element.children]
      exact List.mem_cons_of_mem _ (mem_uids_updL pu f cs h2)

theorem mem_uids_updL (pu : Nat) (f : List Element → List Element) :
    ∀ cs : List Element, pu ∈ uidsL cs → pu ∈ uidsL (updL pu f cs)
  | [] => by intro h; simp [uidsL_nil] at h
  | c :: cs => by
    intro h
    rw [uidsL_cons] at h
    rw [updL, uidsL_cons]
    rcases List.mem_append.mp h with hx | hx
    · exact List.mem_append_left _ (mem_uids_updE pu f c hx)
    · exact List.mem_append_right _ (mem_uids_updL pu f cs hx)

end

/-! ## Lemmas: the weight-invariance side condition, per weight -/

theorem hw_of_tag (w : Weight)
    (hwt : ∀ pt (e1 e2 : Element), e1.tag = e2.tag → w pt e1 = w pt e2)
    (pu : Nat) (f : List Element → List Element) :
    ∀ pt e, pu ∈ uidsE e → w pt (updE pu f e) = w pt e :=
  fun pt e _ => hwt pt _ e (updE_tag pu f e)

theorem hw_of_uid (w : Weight)
    (hwu : ∀ pt (e1 e2 : Element), e1.uid = e2.uid → w pt e1 = w pt e2)
    (pu : Nat) (f : List Element → List Element) :
    ∀ pt e, pu ∈ uidsE e → w pt (updE pu f e) = w pt e :=
  fun pt e _ => hwu pt _ e (updE_uid pu f e)

theorem hw_wElem (x : Element) (pu : Nat) (f : List Element → List Element)
    (hx : pu ∉ uidsE x) :
    ∀ pt e, pu ∈ uidsE e → wElem x pt (updE pu f e) = wElem x pt e := by
  intro pt e hmem
  unfold wElem
  have h1 : e ≠ x := fun he => hx (he ▸ hmem)
  have h2 : updE pu f e ≠ x := fun he => hx (he ▸ mem_uids_updE pu f e hmem)
  simp [h1, h2]

/-! ## Lemmas: counts as multiplicities -/

mutual

theorem wUid_count_E (d : Nat) : ∀ (e : Element) (pt : Option String),
    wcountE (wUid d) pt e = (uidsE e).count d
  | .mk v tg a cs, pt => by
    rw [wcountE_mk, uidsE_def]
    simp only [Element.uid, Element.children]
    rw [List.count_cons, wUid_count_L d cs (some tg)]
    simp only [wUid, Element.uid]
    by_cases hv : v = d
    · subst hv
      simp
      omega
    · have hb : (v == d) = false := beq_eq_false_iff_ne.mpr hv
      simp [hv, hb]

theorem wUid_count_L (d : Nat) : ∀ (cs : List Element) (pt : Option String),
    wcountL (wUid d) pt cs = (uidsL cs).count d
  | [], pt => rfl
  | c :: cs, pt => by
    rw [wcountL_cons, uidsL_cons, List.count_append,
      wUid_count_E d c pt, wUid_count_L d cs pt]

end

mutual

theorem wElem_count_E (x : Element) : ∀ (e : Element) (pt : Option String),
    wcountE (wElem x) pt e = (preorder e).count x
  | .mk v tg a cs, pt => by
    rw [wcountE_mk, preorder_mk, List.count_cons, wElem_count_L x cs (some tg)]
    simp only [wElem]
    by_cases hv : Element.mk v tg a cs = x
    · subst hv
      simp
      omega
    · have hb : ((Element.mk v tg a cs) == x) = false := beq_eq_false_iff_ne.mpr hv
      simp [hv, hb]

theorem wElem_count_L (x : Element) : ∀ (cs : List Element) (pt : Option String),
    wcountL (wElem x) pt cs = (preorderL cs).count x
  | [], pt => rfl
  | c :: cs, pt => by
    rw [wcountL_cons, preorderL_cons, List.count_append,
      wElem_count_E x c pt, wElem_count_L x cs pt]

end

theorem uidCount_eq_count (d : Nat) (t : Element) :
    uidCount d t = (uidsE t).count d := wUid_count_E d t none

theorem occursCount_eq_count (x : Element) (t : Element) :
    occursCount x t = (preorder t).count x := wElem_count_E x t none

/-! ## Lemmas: monotonicity and member lower bounds -/

mutual

theorem wcount_mono_E (w1 w2 : Weight) (hle : ∀ pt e, w1 pt e ≤ w2 pt e) :
    ∀ (e : Element) (pt : Option String), wcountE w1 pt e ≤ wcountE w2 pt e
  | .mk v tg a cs, pt => by
    rw [wcountE_mk, wcountE_mk]
    have h1 := hle pt (Element.mk v tg a cs)
    have h2 := wcount_mono_L w1 w2 hle cs (some tg)
    omega

theorem wcount_mono_L (w1 w2 : Weight) (hle : ∀ pt e, w1 pt e ≤ w2 pt e) :
    ∀ (cs : List Element) (pt : Option String), wcountL w1 pt cs ≤ wcountL w2 pt cs
  | [], pt => Nat.le_refl _
  | c :: cs, pt => by
    rw [wcountL_cons, wcountL_cons]
    have h1 := wcount_mono_E w1 w2 hle c pt
    have h2 := wcount_mono_L w1 w2 hle cs pt
    omega

end

mutual

theorem wcount_ge_E (w : Weight) (hp : ∀ p1 p2 e, w p1 e = w p2 e) :
    ∀ (e x : Element) (pt : Option String), x ∈ preorder e →
      w pt x ≤ wcountE w pt e
  | .mk v tg a cs, x, pt => by
    intro hx
    rw [wcountE_mk]
    rcases mem_preorder_cases _ _ hx with h | h
    · subst h
      omega
    · have := wcount_ge_L w hp cs x (some tg) h
      rw [hp pt (some tg) x]
      omega

theorem wcount_ge_L (w : Weight) (hp : ∀ p1 p2 e, w p1 e = w p2 e) :
    ∀ (cs : List Element) (x : Element) (pt : Option String), x ∈ preorderL cs →
      w pt x ≤ wcountL w pt cs
  | [], x, pt => by intro hx; simp [preorderL] at hx
  | c :: cs, x, pt => by
    intro hx
    rw [preorderL_cons] at hx
    rw [wcountL_cons]
    rcases List.mem_append.mp hx with h | h
    · have := wcount_ge_E w hp c x pt h
      omega
    · have := wcount_ge_L w hp cs x pt h
      omega

end

/-! ## Lemmas: shape-respecting weights ignore renumbering and the merge -/

mutual

theorem wcount_eqNoUid_E (w : Weight)
    (hwt : ∀ pt (e1 e2 : Element), e1.tag = e2.tag → w pt e1 = w pt e2) :
    ∀ (a b : Element) (pt : Option String), eqNoUidE a b = true →
      wcountE w pt a = wcountE w pt b
  | .mk u1 t1 a1 cs1, .mk u2 t2 a2 cs2, pt => by
    intro h
    simp only [eqNoUidE, Bool.and_eq_true, beq_iff_eq] at h
    obtain ⟨⟨ht, ha⟩, hcs⟩ := h
    subst ht
    subst ha
    rw [wcountE_mk, wcountE_mk,
      hwt pt (Element.mk u1 t1 a1 cs1) (Element.mk u2 t1 a1 cs2) rfl,
      wcount_eqNoUid_L w hwt cs1 cs2 (some t1) hcs]

theorem wcount_eqNoUid_L (w : Weight)
    (hwt : ∀ pt (e1 e2 : Element), e1.tag = e2.tag → w pt e1 = w pt e2) :
    ∀ (cs1 cs2 : List Element) (pt : Option String), eqNoUidL cs1 cs2 = true →
      wcountL w pt cs1 = wcountL w pt cs2
  | [], [], pt => fun _ => rfl
  | [], _ :: _, pt => by intro h; simp [eqNoUidL] at h
  | _ :: _, [], pt => by intro h; simp [eqNoUidL] at h
  | c1 :: cs1, c2 :: cs2, pt => by
    intro h
    simp only [eqNoUidL, Bool.and_eq_true] at h
    rw [wcountL_cons, wcountL_cons, wcount_eqNoUid_E w hwt c1 c2 pt h.1,
      wcount_eqNoUid_L w hwt cs1 cs2 pt h.2]

end

/-! ## Lemmas: fresh renumbering of a parsed file -/

mutual

theorem renumberE_snd : ∀ (e : Element) (n : Nat),
    (renumberE n e).2 = n + sizeE e
  | .mk u t a cs, n => by
    rw [renumberE, sizeE]
    have := renumberL_snd cs (n + 1)
    omega

theorem renumberL_snd : ∀ (cs : List Element) (n : Nat),
    (renumberL n cs).2 = n + sizeL cs
  | [], n => by simp [renumberL, sizeL]
  | c :: cs, n => by
    rw [renumberL, sizeL]
    have h1 := renumberE_snd c n
    have h2 := renumberL_snd cs (renumberE n c).2
    omega

end

theorem renumberE_fst_uid (e : Element) (n : Nat) :
    (renumberE n e).1.uid = n := by
  cases e with
  | mk u t a cs => rfl

mutual

theorem renumberE_uids : ∀ (e : Element) (n : Nat),
    uidsE (renumberE n e).1 = List.range' n (sizeE e)
  | .mk u t a cs, n => by
    rw [renumberE]
    rw [uidsE_def]
    simp only [Element.uid, Element.children]
    rw [renumberL_uids cs (n + 1), sizeE]
    rw [Nat.add_comm 1 (sizeL cs), List.range'_succ]

theorem renumberL_uids : ∀ (cs : List Element) (n : Nat),
    uidsL (renumberL n cs).1 = List.range' n (sizeL cs)
  | [], n => by rw [renumberL, sizeL]; rfl
  | c :: cs, n => by
    rw [renumberL]
    rw [uidsL_cons, renumberE_uids c n, renumberL_uids cs (renumberE n c).2,
      renumberE_snd c n, sizeL, List.range'_append_1, Nat.add_comm]

end

mutual

theorem renumberE_eqNoUid : ∀ (e : Element) (n : Nat),
    eqNoUidE (renumberE n e).1 e = true
  | .mk u t a cs, n => by
    rw [renumberE]
    simp only [eqNoUidE, Bool.and_eq_true, beq_iff_eq]
    refine ⟨by simp, renumberL_eqNoUid cs (n + 1)⟩

theorem renumberL_eqNoUid : ∀ (cs : List Element) (n : Nat),
    eqNoUidL (renumberL n cs).1 cs = true
  | [], n => rfl
  | c :: cs, n => by
    rw [renumberL]
    simp only [eqNoUidL, Bool.and_eq_true]
    exact ⟨renumberE_eqNoUid c n, renumberL_eqNoUid cs (renumberE n c).2⟩

end

/-! ## Lemmas: the attribute merge leaves uid and shape alone -/

theorem mergedRoot_uid (img x : Element) : (mergedRoot img x).uid = x.uid := rfl

theorem mergedRoot_tag (img x : Element) : (mergedRoot img x).tag = x.tag := rfl

theorem mergedRoot_uidsE (img x : Element) :
    uidsE (mergedRoot img x) = uidsE x := by
  cases x with
  | mk u t a cs =>
    unfold mergedRoot
    rw [uidsE_def, uidsE_def]
    simp only [Element.uid, Element.children]

theorem wcountE_mergedRoot (w : Weight)
    (hwt : ∀ pt (e1 e2 : Element), e1.tag = e2.tag → w pt e1 = w pt e2)
    (img x : Element) (pt : Option String) :
    wcountE w pt (mergedRoot img x) = wcountE w pt x := by
  cases x with
  | mk u t a cs =>
    unfold mergedRoot
    rw [wcountE_mk, wcountE_mk]
    refine congrArg (fun z => z + wcountL w (some t) cs) ?_
    exact hwt pt _ _ rfl

theorem eqNoUid_mergedRoot_congr (img : Element) :
    ∀ x y : Element, eqNoUidE x y = true →
      eqNoUidE (mergedRoot img x) (mergedRoot img y) = true
  | .mk u1 t1 a1 cs1, .mk u2 t2 a2 cs2 => by
    intro h
    simp only [eqNoUidE, Bool.and_eq_true, beq_iff_eq] at h
    obtain ⟨⟨ht, ha⟩, hcs⟩ := h
    subst ht
    subst ha
    unfold mergedRoot
    simp only [Element.uid, Element.tag, Element.attrib, Element.children,
      eqNoUidE, Bool.and_eq_true, beq_iff_eq]
    exact ⟨by simp, hcs⟩

/-! ## Lemmas: the search, the parent map and the pair invariant -/

/-- `x` is a child of a `g`-tagged strict descendant of `t` with uid `pu`
(the attachment invariant the loop maintains for pending placeholders). -/
def memGChildAt (t : Element) (pu : Nat) (x : Element) : Prop :=
  ∃ p, p ∈ preorderL t.children ∧ p.uid = pu ∧ p.tag = gTag ∧ x ∈ p.children

theorem mem_imageChildren (g c : Element) :
    c ∈ imageChildren g ↔ c ∈ g.children ∧ c.tag = imageTag := by
  unfold imageChildren
  rw [List.mem_filter]
  constructor
  · rintro ⟨h1, h2⟩
    exact ⟨h1, beq_iff_eq.mp h2⟩
  · rintro ⟨h1, h2⟩
    exact ⟨h1, beq_iff_eq.mpr h2⟩

theorem mem_findPairs (root g img : Element) :
    (g, img) ∈ findPairs root ↔
      g ∈ preorderL root.children ∧ g.tag = gTag ∧
        img ∈ g.children ∧ img.tag = imageTag := by
  unfold findPairs
  constructor
  · intro h
    obtain ⟨g', hg', hmem⟩ := List.mem_flatMap.mp h
    obtain ⟨c, hc, heq⟩ := List.mem_map.mp hmem
    obtain ⟨hgm, hgt⟩ := List.mem_filter.mp hg'
    injection heq with e1 e2
    subst e1
    subst e2
    obtain ⟨h1, h2⟩ := (mem_imageChildren g' c).mp hc
    exact ⟨hgm, beq_iff_eq.mp hgt, h1, h2⟩
  · rintro ⟨h1, h2, h3, h4⟩
    refine List.mem_flatMap.mpr ⟨g, List.mem_filter.mpr ⟨h1, beq_iff_eq.mpr h2⟩, ?_⟩
    exact List.mem_map.mpr ⟨img, (mem_imageChildren g img).mpr ⟨h3, h4⟩, rfl⟩

theorem image_tags_eq_map_snd (root : Element) :
    image_tags root = (findPairs root).map Prod.snd := by
  unfold image_tags findPairs
  rw [List.map_flatMap]
  refine congrArg _ ?_
  funext g
  rw [List.map_map]
  simp

theorem mem_parentEntries (root : Element) (k v : Nat) :
    (k, v) ∈ parentEntries root ↔
      ∃ p c, p ∈ preorder root ∧ c ∈ p.children ∧ c.uid = k ∧ p.uid = v := by
  unfold parentEntries
  constructor
  · intro h
    obtain ⟨p, hp, hmem⟩ := List.mem_flatMap.mp h
    obtain ⟨c, hc, heq⟩ := List.mem_map.mp hmem
    injection heq with e1 e2
    exact ⟨p, c, hp, hc, e1, e2⟩
  · rintro ⟨p, c, hp, hc, h1, h2⟩
    exact List.mem_flatMap.mpr ⟨p, hp, List.mem_map.mpr ⟨c, hc, by rw [h1, h2]⟩⟩

theorem parentLookup_mem :
    ∀ (m : List (Nat × Nat)) (u v : Nat), parentLookup m u = some v → (u, v) ∈ m := by
  intro m
  induction m with
  | nil => intro u v h; cases h
  | cons kv m ih =>
    intro u v h
    rw [parentLookup] at h
    by_cases hk : kv.1 = u
    · rw [if_pos hk] at h
      injection h with h
      subst h
      rw [← hk]
      exact List.mem_cons_self _ _
    · rw [if_neg hk] at h
      exact List.mem_cons_of_mem _ (ih u v h)

theorem parentLookup_exists :
    ∀ (m : List (Nat × Nat)) (u v : Nat), (u, v) ∈ m →
      ∃ v', parentLookup m u = some v' := by
  intro m
  induction m with
  | nil => intro u v h; simp at h
  | cons kv m ih =>
    intro u v h
    rw [parentLookup]
    by_cases hk : kv.1 = u
    · exact ⟨kv.2, if_pos hk⟩
    · rw [if_neg hk]
      rcases List.mem_cons.mp h with hx | hx
      · exact absurd (congrArg Prod.fst hx).symm hk
      · exact ih u v hx

/-! ## Lemmas: a node has at most one parent occurrence (uid-distinct trees) -/

/-- Weight counting occurrences of `c` among a node's children. -/
def childW (c : Element) : Weight := fun _ p => p.children.count c

mutual

theorem wElem_eq_childW_E (c : Element) : ∀ (e : Element) (pt : Option String),
    wcountE (wElem c) pt e
      = (if e = c then 1 else 0) + wcountE (childW c) pt e
  | .mk v tg a cs, pt => by
    rw [wcountE_mk, wcountE_mk, wElem_eq_childW_L c cs (some tg)]
    simp only [wElem, childW, Element.children]

theorem wElem_eq_childW_L (c : Element) : ∀ (cs : List Element) (pt : Option String),
    wcountL (wElem c) pt cs = cs.count c + wcountL (childW c) pt cs
  | [], pt => rfl
  | ch :: cs, pt => by
    rw [wcountL_cons, wcountL_cons, wElem_eq_childW_E c ch pt,
      wElem_eq_childW_L c cs pt, List.count_cons]
    by_cases hch : ch = c
    · subst hch
      simp
      omega
    · have hb : (ch == c) = false := beq_eq_false_iff_ne.mpr hch
      simp [hch, hb]
      omega

end

mutual

theorem wcount_ge2_E (w : Weight) (hp : ∀ p1 p2 e, w p1 e = w p2 e) :
    ∀ (e x y : Element) (pt : Option String), x ∈ preorder e → y ∈ preorder e →
      x ≠ y → w pt x + w pt y ≤ wcountE w pt e
  | .mk v tg a cs, x, y, pt => by
    intro hx hy hne
    rw [wcountE_mk]
    rcases mem_preorder_cases _ _ hx with h1 | h1
    · rcases mem_preorder_cases _ _ hy with h2 | h2
      · exact absurd (h1.trans h2.symm) hne
      · subst h1
        have := wcount_ge_L w hp cs y (some tg) h2
        rw [hp pt (some tg) y]
        omega
    · rcases mem_preorder_cases _ _ hy with h2 | h2
      · subst h2
        have := wcount_ge_L w hp cs x (some tg) h1
        rw [hp pt (some tg) x]
        omega
      · have := wcount_ge2_L w hp cs x y (some tg) h1 h2 hne
        rw [hp pt (some tg) x, hp pt (some tg) y]
        omega

theorem wcount_ge2_L (w : Weight) (hp : ∀ p1 p2 e, w p1 e = w p2 e) :
    ∀ (cs : List Element) (x y : Element) (pt : Option String),
      x ∈ preorderL cs → y ∈ preorderL cs → x ≠ y →
      w pt x + w pt y ≤ wcountL w pt cs
  | [], x, y, pt => by intro hx _ _; simp [preorderL] at hx
  | c :: cs, x, y, pt => by
    intro hx hy hne
    rw [preorderL_cons] at hx hy
    rw [wcountL_cons]
    rcases List.mem_append.mp hx with h1 | h1
    · rcases List.mem_append.mp hy with h2 | h2
      · have := wcount_ge2_E w hp c x y pt h1 h2 hne
        omega
      · have ha := wcount_ge_E w hp c x pt h1
        have hb := wcount_ge_L w hp cs y pt h2
        omega
    · rcases List.mem_append.mp hy with h2 | h2
      · have ha := wcount_ge_E w hp c y pt h2
        have hb := wcount_ge_L w hp cs x pt h1
        omega
      · have := wcount_ge2_L w hp cs x y pt h1 h2 hne
        omega

end

/-- In a uid-distinct tree, the same element value cannot be the child of
two different nodes, and a child value is determined by its uid. -/
theorem parent_unique (t : Element) (hnd : (uidsE t).Nodup)
    (p1 c1 p2 c2 : Element)
    (hp1 : p1 ∈ preorder t) (hc1 : c1 ∈ p1.children)
    (hp2 : p2 ∈ preorder t) (hc2 : c2 ∈ p2.children)
    (huid : c1.uid = c2.uid) : p1 = p2 ∧ c1 = c2 := by
  have hc1m : c1 ∈ preorder t := child_mem_E t p1 c1 hp1 hc1
  have hc2m : c2 ∈ preorder t := child_mem_E t p2 c2 hp2 hc2
  have hc : c1 = c2 := uid_inj_preorder t hnd c1 c2 hc1m hc2m huid
  subst hc
  refine ⟨?_, rfl⟩
  by_contra hne
  have hocc : occursCount c1 t ≤ 1 := by
    rw [occursCount_eq_count]
    have h1 : occursCount c1 t ≤ uidCount c1.uid t := by
      refine wcount_mono_E (wElem c1) (wUid c1.uid) ?_ t none
      intro pt e
      unfold wElem wUid
      by_cases he : e = c1
      · subst he; simp
      · simp [he]
    have h2 : uidCount c1.uid t ≤ 1 := by
      rw [uidCount_eq_count]
      exact List.nodup_iff_count_le_one.mp hnd c1.uid
    rw [occursCount_eq_count] at h1
    omega
  have hchild : 2 ≤ wcountE (childW c1) none t := by
    have hge := wcount_ge2_E (childW c1) (fun _ _ _ => rfl) t p1 p2 none hp1 hp2 hne
    have hw1 : 1 ≤ childW c1 none p1 := by
      unfold childW
      exact List.count_pos_iff.mpr hc1
    have hw2 : 1 ≤ childW c1 none p2 := by
      unfold childW
      exact List.count_pos_iff.mpr hc2
    omega
  have heq := wElem_eq_childW_E c1 t none
  unfold occursCount at hocc
  omega

theorem preorder_eq_cons (e : Element) :
    preorder e = e :: preorderL e.children := by
  cases e with
  | mk v tg a cs => rfl

theorem mem_preorder_of_strict (root x : Element)
    (h : x ∈ preorderL root.children) : x ∈ preorder root := by
  rw [preorder_eq_cons]
  exact List.mem_cons_of_mem _ h

/-- `parent_map[img]` (line 61) answers the uid of the `g` the placeholder
was found under. -/
theorem parentLookup_findPairs (root : Element) (hnd : (uidsE root).Nodup)
    (g img : Element) (h : (g, img) ∈ findPairs root) :
    parentLookup (parentEntries root) img.uid = some g.uid := by
  obtain ⟨hg, hgt, hic, hit⟩ := (mem_findPairs root g img).mp h
  have hgm : g ∈ preorder root := mem_preorder_of_strict root g hg
  have hmem : (img.uid, g.uid) ∈ parentEntries root :=
    (mem_parentEntries root img.uid g.uid).mpr ⟨g, img, hgm, hic, rfl, rfl⟩
  obtain ⟨v', hv'⟩ := parentLookup_exists _ img.uid g.uid hmem
  have hm2 := parentLookup_mem _ _ _ hv'
  obtain ⟨p, c, hp, hc, hcu, hpu⟩ := (mem_parentEntries root img.uid v').mp hm2
  have huniq := parent_unique root hnd p c g img hp hc hgm hic hcu
  rw [hv', ← hpu, huniq.1]

theorem foldl_max_ge :
    ∀ (l : List Nat) (a : Nat), a ≤ l.foldl max a ∧ ∀ d ∈ l, d ≤ l.foldl max a := by
  intro l
  induction l with
  | nil => intro a; exact ⟨Nat.le_refl _, by simp⟩
  | cons x xs ih =>
    intro a
    rw [List.foldl_cons]
    obtain ⟨h1, h2⟩ := ih (max a x)
    refine ⟨Nat.le_trans (Nat.le_max_left a x) h1, ?_⟩
    intro d hd
    rcases List.mem_cons.mp hd with hx | hx
    · subst hx
      exact Nat.le_trans (Nat.le_max_right a d) h1
    · exact h2 d hx

theorem maxUid_bound (root : Element) :
    ∀ d ∈ uidsE root, d < maxUid root + 1 := by
  intro d hd
  have := (foldl_max_ge (uidsE root) 0).2 d hd
  unfold maxUid
  omega

theorem stepOutcome_none_unpack (fs : FS) (pm : List (Nat × Nat)) (img : Element)
    (h : stepOutcome fs pm img = none) :
    ∃ fn stored pu, lookupA img.attrib hrefKey = some fn ∧
      fsLookup fs (replacePngSvg fn) = some (some stored) ∧
      parentLookup pm img.uid = some pu := by
  cases hl : lookupA img.attrib hrefKey with
  | none => simp [stepOutcome, hl] at h
  | some fn =>
    cases hfs : fsLookup fs (replacePngSvg fn) with
    | none => simp [stepOutcome, hl, hfs] at h
    | some o =>
      cases o with
      | none => simp [stepOutcome, hl, hfs] at h
      | some stored =>
        cases hpm : parentLookup pm img.uid with
        | none => simp [stepOutcome, hl, hfs, hpm] at h
        | some pu => exact ⟨fn, stored, pu, rfl, hfs, rfl⟩

theorem firstFailure_none_iff (fs : FS) (pm : List (Nat × Nat)) :
    ∀ imgs : List Element, firstFailure fs pm imgs = none ↔
      ∀ img ∈ imgs, stepOutcome fs pm img = none := by
  intro imgs
  induction imgs with
  | nil => simp [firstFailure]
  | cons img rest ih =>
    rw [firstFailure]
    cases hso : stepOutcome fs pm img with
    | some e =>
      simp only []
      constructor
      · intro h; cases h
      · intro h
        exact absurd (h img (List.mem_cons_self _ _)) (by rw [hso]; simp)
    | none =>
      simp only []
      rw [ih]
      constructor
      · intro h img' hm
        rcases List.mem_cons.mp hm with hx | hx
        · rw [hx, hso]
        · exact h img' hx
      · intro h img' hm
        exact h img' (List.mem_cons_of_mem _ hm)

theorem processImgs_ok_noFailure (fs : FS) (pm : List (Nat × Nat))
    (imgs : List Element) (tree : Element) (ctr : Nat)
    (p : Element × Nat) (h : (processImgs fs pm imgs tree ctr).1 = .ok p) :
    firstFailure fs pm imgs = none := by
  cases hf : firstFailure fs pm imgs with
  | none => rfl
  | some e =>
    rw [processImgs_error_of_firstFailure fs pm imgs tree ctr e hf] at h
    cases h

/-! ## Lemmas: the matched list as a pair count -/

/-- The matched images found when searching a forest (so that
`image_tags root = gImages root.children`). -/
def gImages (cs : List Element) : List Element :=
  ((preorderL cs).filter (fun e => e.tag == gTag)).flatMap imageChildren

/-- The matched images of a whole subtree, its root included. -/
def gImagesE (e : Element) : List Element :=
  ((preorder e).filter (fun e => e.tag == gTag)).flatMap imageChildren

theorem image_tags_eq_gImages (root : Element) :
    image_tags root = gImages root.children := rfl

theorem gImagesE_eq (e : Element) :
    gImagesE e
      = (if e.tag == gTag then imageChildren e else []) ++ gImages e.children := by
  unfold gImagesE gImages
  rw [preorder_eq_cons, List.filter_cons]
  by_cases h : (e.tag == gTag) = true
  · rw [if_pos h, if_pos h, List.flatMap_cons]
  · rw [if_neg h, if_neg h, List.nil_append]

theorem gImages_cons (c : Element) (cs : List Element) :
    gImages (c :: cs) = gImagesE c ++ gImages cs := by
  unfold gImages gImagesE
  rw [preorderL_cons, List.filter_append, List.flatMap_append]

theorem mem_gImages (cs : List Element) (x : Element) (h : x ∈ gImages cs) :
    ∃ g', g' ∈ preorderL cs ∧ g'.tag = gTag ∧ x ∈ g'.children ∧ x.tag = imageTag := by
  unfold gImages at h
  obtain ⟨g', hg', hmem⟩ := List.mem_flatMap.mp h
  obtain ⟨hgm, hgt⟩ := List.mem_filter.mp hg'
  obtain ⟨h1, h2⟩ := (mem_imageChildren g' x).mp hmem
  exact ⟨g', hgm, beq_iff_eq.mp hgt, h1, h2⟩

theorem wPair_shift_E (c : Element) (tg : String) :
    wcountE wPair (some tg) c
      = (if tg = gTag ∧ c.tag = imageTag then 1 else 0) + wcountE wPair none c := by
  cases c with
  | mk v t a cs =>
    rw [wcountE_mk, wcountE_mk]
    simp only [wPair, Element.tag]
    have h0 : (if (none : Option String) = some gTag ∧ t = imageTag then 1 else 0) = 0 := by
      simp
    by_cases h1 : tg = gTag ∧ t = imageTag
    · simp only [h0]
      rw [if_pos h1, if_pos (by simp [h1.1, h1.2])]
      omega
    · simp only [h0]
      rw [if_neg h1, if_neg (fun hx => h1 ⟨Option.some.inj hx.1, hx.2⟩)]
      omega

theorem wPair_shift_L :
    ∀ (cs : List Element) (tg : String),
      wcountL wPair (some tg) cs
        = (if tg = gTag then (cs.filter (fun c => c.tag == imageTag)).length else 0)
          + wcountL wPair none cs := by
  intro cs
  induction cs with
  | nil => intro tg; simp [wcountL_nil]
  | cons c cs ih =>
    intro tg
    rw [wcountL_cons, wcountL_cons, wPair_shift_E c tg, ih tg, List.filter_cons]
    by_cases htg : tg = gTag
    · by_cases hc : c.tag = imageTag
      · rw [if_pos htg, if_pos htg, if_pos ⟨htg, hc⟩, if_pos (beq_iff_eq.mpr hc),
          List.length_cons]
        omega
      · rw [if_pos htg, if_pos htg, if_neg (fun hx => hc hx.2),
          if_neg (by simp [hc])]
        omega
    · rw [if_neg htg, if_neg htg, if_neg (fun hx => htg hx.1)]
      omega

mutual

theorem gImagesE_length : ∀ e : Element,
    (gImagesE e).length = wcountE wPair none e
  | .mk v tg a cs => by
    rw [gImagesE_eq, List.length_append, wcountE_mk]
    have h0 : wPair none (Element.mk v tg a cs) = 0 := by simp [wPair]
    rw [h0]
    simp only [Element.tag, Element.children]
    rw [wPair_shift_L cs tg, gImages_length cs]
    by_cases h : tg = gTag
    · rw [if_pos (beq_iff_eq.mpr h), if_pos h]
      unfold imageChildren
      simp only [Element.children]
      omega
    · rw [if_neg (by simp [h]), if_neg h]
      simp

theorem gImages_length : ∀ cs : List Element,
    (gImages cs).length = wcountL wPair none cs
  | [] => rfl
  | c :: cs => by
    rw [gImages_cons, List.length_append, wcountL_cons,
      gImagesE_length c, gImages_length cs]

end

theorem image_tags_length_eq (t : Element) :
    (image_tags t).length = matchedCount t := by
  rw [image_tags_eq_gImages]
  exact gImages_length t.children

theorem nodup_child_uids :
    ∀ cs : List Element, (uidsL cs).Nodup → (cs.map Element.uid).Nodup := by
  intro cs
  induction cs with
  | nil => intro _; exact List.nodup_nil
  | cons c cs ih =>
    intro h
    obtain ⟨h1, h2, hd⟩ := (nodup_uidsL_cons_iff c cs).mp h
    rw [List.map_cons, List.nodup_cons]
    refine ⟨?_, ih h2⟩
    intro hmem
    obtain ⟨c', hc', hcu⟩ := List.mem_map.mp hmem
    have hm1 : c.uid ∈ uidsE c := by
      rw [uidsE_def]
      exact List.mem_cons_self _ _
    have hm2 : c.uid ∈ uidsL cs := hcu ▸ uid_child_mem cs c' hc'
    exact hd hm1 hm2

mutual

theorem gImagesE_uids : ∀ e : Element, (uidsE e).Nodup →
    ((gImagesE e).map Element.uid).Nodup ∧
      ∀ u ∈ (gImagesE e).map Element.uid, u ∈ uidsE e
  | .mk v tg a cs => by
    intro hnd
    obtain ⟨hv, hcs⟩ := nodup_uidsE_parts v tg a cs hnd
    rw [gImagesE_eq, List.map_append, List.nodup_append]
    simp only [Element.tag, Element.children]
    obtain ⟨ihn, ihm⟩ := gImages_uids cs hcs
    have hheadN : ((if (tg == gTag) = true then imageChildren (Element.mk v tg a cs)
        else []).map Element.uid).Nodup := by
      by_cases h : (tg == gTag) = true
      · rw [if_pos h]
        refine List.Nodup.sublist (List.Sublist.map Element.uid ?_) (nodup_child_uids cs hcs)
        unfold imageChildren
        exact List.filter_sublist _
      · rw [if_neg h]
        exact List.nodup_nil
    have hheadM : ∀ u ∈ (if (tg == gTag) = true
        then imageChildren (Element.mk v tg a cs) else []).map Element.uid,
        ∃ c0, c0 ∈ cs ∧ c0.uid = u := by
      intro u hu
      by_cases h : (tg == gTag) = true
      · rw [if_pos h] at hu
        obtain ⟨c0, hc0, hcu⟩ := List.mem_map.mp hu
        exact ⟨c0, ((mem_imageChildren _ c0).mp hc0).1, hcu⟩
      · rw [if_neg h] at hu
        simp at hu
    refine ⟨⟨hheadN, ihn, ?_⟩, ?_⟩
    · intro u hu hu2
      obtain ⟨c0, hc0, hcu⟩ := hheadM u hu
      obtain ⟨x, hx, hxu⟩ := List.mem_map.mp hu2
      obtain ⟨g', hg', hgt, hxc, hxt⟩ := mem_gImages cs x hx
      have hxm : x ∈ preorderL cs :=
        child_mem_L cs g' x hg' hxc
      have hc0m : c0 ∈ preorderL cs :=
        mem_preorderL_of_mem cs c0 c0 hc0 (self_mem_preorder c0)
      have hxeq : x = c0 :=
        List.inj_on_of_nodup_map hcs hxm hc0m (by rw [hxu, hcu])
      subst hxeq
      have hg'm : g' ∈ preorder (Element.mk v tg a cs) :=
        List.mem_cons_of_mem _ hg'
      have huniq := parent_unique (Element.mk v tg a cs) hnd
        (Element.mk v tg a cs) x g' x (self_mem_preorder _) hc0 hg'm hxc rfl
      have : (Element.mk v tg a cs).uid ∈ uidsL cs := by
        rw [huniq.1]
        exact uid_mem_uidsL cs g' hg'
      exact hv this
    · intro u hu
      rw [uidsE_def]
      refine List.mem_cons_of_mem _ ?_
      rcases List.mem_append.mp hu with h | h
      · obtain ⟨c0, hc0, hcu⟩ := hheadM u h
        exact hcu ▸ uid_child_mem cs c0 hc0
      · exact ihm u h

theorem gImages_uids : ∀ cs : List Element, (uidsL cs).Nodup →
    ((gImages cs).map Element.uid).Nodup ∧
      ∀ u ∈ (gImages cs).map Element.uid, u ∈ uidsL cs
  | [] => fun _ => ⟨List.nodup_nil, by intro u hu; simp [gImages, preorderL] at hu⟩
  | c :: cs => by
    intro hnd
    obtain ⟨h1, h2, hd⟩ := (nodup_uidsL_cons_iff c cs).mp hnd
    rw [gImages_cons, List.map_append, List.nodup_append]
    obtain ⟨ihn1, ihm1⟩ := gImagesE_uids c h1
    obtain ⟨ihn2, ihm2⟩ := gImages_uids cs h2
    refine ⟨⟨ihn1, ihn2, ?_⟩, ?_⟩
    · intro u hu1 hu2
      exact hd (ihm1 u hu1) (ihm2 u hu2)
    · intro u hu
      rw [uidsL_cons]
      rcases List.mem_append.mp hu with h | h
      · exact List.mem_append_left _ (ihm1 u h)
      · exact List.mem_append_right _ (ihm2 u h)

end

theorem findPairs_snd_uid_nodup (root : Element) (hnd : (uidsE root).Nodup) :
    ((findPairs root).map (fun gi => gi.2.uid)).Nodup := by
  have h1 : (findPairs root).map (fun gi => gi.2.uid)
      = (image_tags root).map Element.uid := by
    rw [image_tags_eq_map_snd, List.map_map]
    rfl
  rw [h1, image_tags_eq_gImages]
  cases root with
  | mk v tg a cs =>
    exact (gImages_uids cs (nodup_uidsE_parts v tg a cs hnd).2).1

/-- No matched `g` node sits inside a matched placeholder's subtree when no
placeholder has an image-tagged strict descendant. -/
theorem findPairs_sep (root : Element) (hnd : (uidsE root).Nodup)
    (h2 : ∀ img ∈ image_tags root, wcountE wImage (some gTag) img = 1) :
    ∀ gi ∈ findPairs root, ∀ gj ∈ findPairs root, gj.1.uid ∉ uidsE gi.2 := by
  rintro ⟨gI, imgI⟩ hgi ⟨gJ, imgJ⟩ hgj hmem
  obtain ⟨hgiM, hgiT, hiC, hiT⟩ := (mem_findPairs root gI imgI).mp hgi
  obtain ⟨hgjM, hgjT, hjC, hjT⟩ := (mem_findPairs root gJ imgJ).mp hgj
  simp only at hmem
  obtain ⟨x, hx, hxu⟩ := List.mem_map.mp hmem
  have hiM : imgI ∈ preorder root :=
    child_mem_E root gI imgI (mem_preorder_of_strict root gI hgiM) hiC
  have hxR : x ∈ preorder root := preorder_trans_E root x imgI hiM hx
  have hgjR : gJ ∈ preorder root := mem_preorder_of_strict root gJ hgjM
  have hxg : x = gJ := uid_inj_preorder root hnd x gJ hxR hgjR hxu
  subst hxg
  have hjI : imgJ ∈ preorder imgI :=
    preorder_trans_E imgI imgJ x hx (child_mem_E x x imgJ (self_mem_preorder x) hjC)
  by_cases hji : imgJ = imgI
  · subst hji
    rcases mem_preorder_cases imgJ x hx with hcase | hcase
    · rw [hcase] at hgjT
      rw [hgjT] at hjT
      exact absurd hjT (by decide)
    · have himgmem : imgJ ∈ preorderL imgJ.children :=
        preorder_trans_L imgJ.children imgJ x hcase
          (child_mem_E x x imgJ (self_mem_preorder x) hjC)
      have hndI : (uidsE imgJ).Nodup := nodup_sub_E root imgJ hiM hnd
      cases imgJ with
      | mk v tg a cs =>
        have hhead := (nodup_uidsE_parts v tg a cs hndI).1
        exact hhead (uid_mem_uidsL cs _ himgmem)
  · have hjStrict : imgJ ∈ preorderL imgI.children := by
      rcases mem_preorder_cases imgI imgJ hjI with hcase | hcase
      · exact absurd hcase hji
      · exact hcase
    have hIin : imgI ∈ image_tags root := by
      rw [image_tags_eq_map_snd]
      exact List.mem_map.mpr ⟨(gI, imgI), hgi, rfl⟩
    have hcount := h2 imgI hIin
    cases imgI with
    | mk v tg a cs =>
      rw [wcountE_mk] at hcount
      have hroot : wImage (some gTag) (Element.mk v tg a cs) = 1 := by
        simp only [Element.tag] at hiT
        simp [wImage, Element.tag, hiT]
      rw [hroot] at hcount
      have hinner : wcountL wImage (some tg) cs = 0 := by omega
      have hge : wImage (some tg) imgJ ≤ wcountL wImage (some tg) cs :=
        wcount_ge_L wImage (fun _ _ _ => rfl) cs imgJ (some tg) hjStrict
      have himgJ : wImage (some tg) imgJ = 1 := by simp [wImage, hjT]
      omega

theorem mem_removeFirstUid :
    ∀ (l : List Element) (x : Element) (u : Nat), x ∈ l → x.uid ≠ u →
      x ∈ removeFirstUid l u := by
  intro l
  induction l with
  | nil => intro x u h _; simp at h
  | cons c cs ih =>
    intro x u hmem hxu
    rw [removeFirstUid]
    by_cases hcu : c.uid = u
    · rw [if_pos hcu]
      rcases List.mem_cons.mp hmem with hx | hx
      · exact absurd (hx ▸ hcu) hxu
      · exact hx
    · rw [if_neg hcu]
      rcases List.mem_cons.mp hmem with hx | hx
      · exact hx ▸ List.mem_cons_self _ _
      · exact List.mem_cons_of_mem _ (ih x u hx hxu)

mutual

/-- A pending placeholder stays attached (same `g` uid and tag, same
placeholder value) across another placeholder's splice, provided neither
its parent nor itself sits inside the removed subtree. -/
theorem memG_pres_E (pu0 u0 : Nat) (r : Element) (pk : Nat) (x : Element)
    (hxu : x.uid ≠ u0) (hxp : pu0 ∉ uidsE x) :
    ∀ e : Element,
      (∀ n ∈ preorder e, n.uid = u0 → pk ∉ uidsE n ∧ pu0 ∉ uidsE n) →
      (∃ p, p ∈ preorder e ∧ p.uid = pk ∧ p.tag = gTag ∧ x ∈ p.children) →
      ∃ p', p' ∈ preorder (updE pu0 (fun cs => spliceChildren cs u0 r) e) ∧
        p'.uid = pk ∧ p'.tag = gTag ∧ x ∈ p'.children
  | .mk v tg a cs => by
    rintro hcond ⟨p, hp, hpu, hpt, hx⟩
    have hxfix : updE pu0 (fun cs => spliceChildren cs u0 r) x = x :=
      updE_not_mem pu0 _ x hxp
    have hxcs' : x ∈ cs → x ∈ updL pu0 (fun cs => spliceChildren cs u0 r) cs := by
      intro hxc
      rw [updL_eq_map]
      exact List.mem_map.mpr ⟨x, hxc, hxfix⟩
    rcases mem_preorder_cases _ _ hp with hcase | hcase
    · subst hcase
      rw [updE_mk]
      by_cases hv : v = pu0
      · rw [if_pos hv]
        refine ⟨_, self_mem_preorder _, hpu, hpt, ?_⟩
        show x ∈ spliceChildren (updL pu0 _ cs) u0 r
        unfold spliceChildren
        exact mem_removeFirstUid _ x u0
          (List.mem_append_left _ (hxcs' hx)) hxu
      · rw [if_neg hv]
        exact ⟨_, self_mem_preorder _, hpu, hpt, hxcs' hx⟩
    · have hcond' : ∀ n ∈ preorderL cs, n.uid = u0 → pk ∉ uidsE n ∧ pu0 ∉ uidsE n :=
        fun n hn => hcond n (List.mem_cons_of_mem _ hn)
      obtain ⟨p', hp', hp'u, hp't, hp'x⟩ :=
        memG_pres_L pu0 u0 r pk x hxu hxp cs hcond' ⟨p, hcase, hpu, hpt, hx⟩
      obtain ⟨m', hm', hpm'⟩ := exists_mem_of_mem_preorderL _ p' hp'
      rw [updE_mk]
      by_cases hv : v = pu0
      · rw [if_pos hv]
        refine ⟨p', List.mem_cons_of_mem _ ?_, hp'u, hp't, hp'x⟩
        have hm'uid : m'.uid ≠ u0 := by
          intro hm'u
          rw [updL_eq_map] at hm'
          obtain ⟨m, hm, hmm⟩ := List.mem_map.mp hm'
          have hmu : m.uid = u0 := by
            rw [← hm'u, ← hmm, updE_uid]
          have hmE : m ∈ preorder (Element.mk v tg a cs) :=
            List.mem_cons_of_mem _
              (mem_preorderL_of_mem cs m m hm (self_mem_preorder m))
          obtain ⟨hpk, hpu0⟩ := hcond m hmE hmu
          rw [updE_not_mem pu0 _ m hpu0] at hmm
          subst hmm
          exact hpk (hp'u ▸ uid_mem_uidsE m p' hpm')
        refine mem_preorderL_of_mem _ m' p' ?_ hpm'
        unfold spliceChildren
        exact mem_removeFirstUid _ m' u0 (List.mem_append_left _ hm') hm'uid
      · rw [if_neg hv]
        exact ⟨p', List.mem_cons_of_mem _ hp', hp'u, hp't, hp'x⟩

theorem memG_pres_L (pu0 u0 : Nat) (r : Element) (pk : Nat) (x : Element)
    (hxu : x.uid ≠ u0) (hxp : pu0 ∉ uidsE x) :
    ∀ cs : List Element,
      (∀ n ∈ preorderL cs, n.uid = u0 → pk ∉ uidsE n ∧ pu0 ∉ uidsE n) →
      (∃ p, p ∈ preorderL cs ∧ p.uid = pk ∧ p.tag = gTag ∧ x ∈ p.children) →
      ∃ p', p' ∈ preorderL (updL pu0 (fun cs => spliceChildren cs u0 r) cs) ∧
        p'.uid = pk ∧ p'.tag = gTag ∧ x ∈ p'.children
  | [] => by
    rintro _ ⟨p, hp, _⟩
    simp [preorderL] at hp
  | c :: cs => by
    rintro hcond ⟨p, hp, hpu, hpt, hx⟩
    rw [preorderL_cons] at hp
    rw [updL, preorderL_cons]
    rcases List.mem_append.mp hp with hcase | hcase
    · obtain ⟨p', hp', hrest⟩ := memG_pres_E pu0 u0 r pk x hxu hxp c
        (fun n hn => hcond n (preorderL_cons c cs ▸ List.mem_append_left _ hn))
        ⟨p, hcase, hpu, hpt, hx⟩
      exact ⟨p', List.mem_append_left _ hp', hrest⟩
    · obtain ⟨p', hp', hrest⟩ := memG_pres_L pu0 u0 r pk x hxu hxp cs
        (fun n hn => hcond n (preorderL_cons c cs ▸ List.mem_append_right _ hn))
        ⟨p, hcase, hpu, hpt, hx⟩
      exact ⟨p', List.mem_append_right _ hp', hrest⟩

end

/-! ## Lemmas: one substitution step -/

theorem updE_children_ne (pu : Nat) (f : List Element → List Element)
    (t : Element) (h : t.uid ≠ pu) :
    (updE pu f t).children = updL pu f t.children := by
  cases t with
  | mk v tg a cs =>
    rw [updE_mk]
    simp only [Element.uid] at h
    rw [if_neg h]
    simp only [Element.children]

theorem filter_image_updL (pu : Nat) (f : List Element → List Element) :
    ∀ cs : List Element,
      ((updL pu f cs).filter (fun c => c.tag == imageTag)).length
        = (cs.filter (fun c => c.tag == imageTag)).length := by
  intro cs
  induction cs with
  | nil => rfl
  | cons c cs ih =>
    rw [updL, List.filter_cons, List.filter_cons, updE_tag]
    by_cases h : (c.tag == imageTag) = true
    · rw [if_pos h, if_pos h, List.length_cons, List.length_cons, ih]
    · rw [if_neg h, if_neg h, ih]

/-- The total-weight balance of one splice (lines 57-64), for any weight
left unchanged by the child-list rewrite itself. -/
theorem step_weight_eq (w : Weight) (t : Element) (pu : Nat) (img r : Element)
    (hnd : (uidsE t).Nodup)
    (hpair : ∃ p, p ∈ preorderL t.children ∧ p.uid = pu ∧ p.tag = gTag ∧
      img ∈ p.children)
    (hw : ∀ pt e, pu ∈ uidsE e →
      w pt (updE pu (fun cs => spliceChildren cs img.uid r) e) = w pt e) :
    wcountE w none (updE pu (fun cs => spliceChildren cs img.uid r) t)
        + wcountE w (some gTag) img
      = wcountE w none t + wcountE w (some gTag) r := by
  obtain ⟨p, hpm, hpu, hpt, himg⟩ := hpair
  have hpE : p ∈ preorder t := mem_preorder_of_strict t p hpm
  have hfind : nodeAt t pu = some p := nodeAt_eq_of_mem t hnd p hpE pu hpu
  have hupd := wcount_updE w pu _ hw t none hnd p hfind
  have hndp : (p.children.map Element.uid).Nodup := by
    have hsub := nodup_sub_E t p hpE hnd
    cases p with
    | mk v tg a cs =>
      exact nodup_child_uids cs (nodup_uidsE_parts v tg a cs hsub).2
  have hsplice := wcount_splice w (some p.tag) p.children img.uid r img himg rfl hndp
  rw [hpt] at hupd hsplice
  omega

theorem step_matched_eq (t : Element) (pu : Nat) (img r : Element)
    (hnd : (uidsE t).Nodup)
    (hpair : ∃ p, p ∈ preorderL t.children ∧ p.uid = pu ∧ p.tag = gTag ∧
      img ∈ p.children) :
    matchedCount (updE pu (fun cs => spliceChildren cs img.uid r) t)
        + wcountE wPair (some gTag) img
      = matchedCount t + wcountE wPair (some gTag) r := by
  have hwp : ∀ pt (e1 e2 : Element), e1.tag = e2.tag → wPair pt e1 = wPair pt e2 := by
    intro pt e1 e2 he
    unfold wPair
    rw [he]
  have hS3 := step_weight_eq wPair t pu img r hnd hpair (hw_of_tag wPair hwp pu _)
  have hvne : t.uid ≠ pu := by
    obtain ⟨p, hpm, hpu, _, _⟩ := hpair
    intro he
    cases t with
    | mk v tg a cs =>
      simp only [Element.uid] at he
      have := (nodup_uidsE_parts v tg a cs hnd).1
      simp only [Element.children] at hpm
      exact this (he ▸ hpu ▸ uid_mem_uidsL cs p hpm)
  have hshift : ∀ s : Element, wcountE wPair none s
      = (if s.tag = gTag
          then (s.children.filter (fun c => c.tag == imageTag)).length else 0)
        + wcountL wPair none s.children := by
    intro s
    cases s with
    | mk v tg a cs =>
      rw [wcountE_mk]
      have h0 : wPair none (Element.mk v tg a cs) = 0 := by simp [wPair]
      rw [h0, wPair_shift_L]
      simp only [Element.tag, Element.children]
      omega
  have h1 := hshift t
  have h2 := hshift (updE pu (fun cs => spliceChildren cs img.uid r) t)
  rw [updE_tag, updE_children_ne pu _ t hvne, filter_image_updL] at h2
  rw [h1, h2] at hS3
  unfold matchedCount
  rw [updE_children_ne pu _ t hvne]
  omega

theorem step_uid_eq (t : Element) (pu : Nat) (img r : Element) (d : Nat)
    (hnd : (uidsE t).Nodup)
    (hpair : ∃ p, p ∈ preorderL t.children ∧ p.uid = pu ∧ p.tag = gTag ∧
      img ∈ p.children) :
    uidCount d (updE pu (fun cs => spliceChildren cs img.uid r) t)
        + (uidsE img).count d
      = uidCount d t + (uidsE r).count d := by
  have hwu : ∀ pt (e1 e2 : Element), e1.uid = e2.uid → wUid d pt e1 = wUid d pt e2 := by
    intro pt e1 e2 he
    unfold wUid
    rw [he]
  have hS3 := step_weight_eq (wUid d) t pu img r hnd hpair (hw_of_uid (wUid d) hwu pu _)
  unfold uidCount
  rw [← wUid_count_E d img (some gTag), ← wUid_count_E d r (some gTag)]
  exact hS3

theorem step_nodup_bound (t : Element) (pu : Nat) (img stored : Element)
    (ctr : Nat) (r : Element) (hr : r = mergedRoot img (renumberE ctr stored).1)
    (hnd : (uidsE t).Nodup)
    (hbound : ∀ d ∈ uidsE t, d < ctr)
    (hpair : ∃ p, p ∈ preorderL t.children ∧ p.uid = pu ∧ p.tag = gTag ∧
      img ∈ p.children) :
    (uidsE (updE pu (fun cs => spliceChildren cs img.uid r) t)).Nodup ∧
    ∀ d ∈ uidsE (updE pu (fun cs => spliceChildren cs img.uid r) t),
      d < (renumberE ctr stored).2 := by
  have hruids : uidsE r = List.range' ctr (sizeE stored) := by
    rw [hr, mergedRoot_uidsE, renumberE_uids]
  have hctr' : (renumberE ctr stored).2 = ctr + sizeE stored := renumberE_snd stored ctr
  have key : ∀ d, (uidsE (updE pu (fun cs => spliceChildren cs img.uid r) t)).count d
      + (uidsE img).count d = (uidsE t).count d + (uidsE r).count d := by
    intro d
    have hk := step_uid_eq t pu img r d hnd hpair
    rw [uidCount_eq_count, uidCount_eq_count] at hk
    exact hk
  constructor
  · rw [List.nodup_iff_count_le_one]
    intro d
    have hk := key d
    by_cases hd : d < ctr
    · have hr0 : (uidsE r).count d = 0 := by
        rw [hruids, List.count_eq_zero]
        intro hmem
        rw [List.mem_range'] at hmem
        obtain ⟨i, hi, he⟩ := hmem
        omega
      have ht1 : (uidsE t).count d ≤ 1 := List.nodup_iff_count_le_one.mp hnd d
      omega
    · have ht0 : (uidsE t).count d = 0 := by
        rw [List.count_eq_zero]
        intro hmem
        exact hd (hbound d hmem)
      have hr1 : (uidsE r).count d ≤ 1 := by
        rw [hruids]
        exact List.nodup_iff_count_le_one.mp (List.nodup_range' _ _) d
      omega
  · intro d hd
    have hpos : 0 < (uidsE (updE pu (fun cs => spliceChildren cs img.uid r) t)).count d :=
      List.count_pos_iff.mpr hd
    have hk := key d
    by_cases hdt : (uidsE t).count d = 0
    · have hrpos : 0 < (uidsE r).count d := by omega
      have hmem : d ∈ uidsE r := List.count_pos_iff.mp hrpos
      rw [hruids, List.mem_range'] at hmem
      obtain ⟨i, hi, he⟩ := hmem
      omega
    · have hmem : d ∈ uidsE t := List.count_pos_iff.mp (Nat.pos_of_ne_zero hdt)
      have := hbound d hmem
      omega

/-- The loop invariant, part A: running the loop over a pending list of
(g, placeholder) pairs keeps uids distinct and counter-bounded, never
resurrects a removed uid, removes every pending placeholder's whole subtree,
preserves occurrences of values disjoint from the pending subtrees, and
leaves every spliced-in merged root present in the final tree. -/
theorem processImgs_invA (fs : FS) (pm : List (Nat × Nat)) :
    ∀ (pairs : List (Element × Element)) (t : Element) (ctr : Nat)
      (tf : Element) (cf : Nat),
      (processImgs fs pm (pairs.map Prod.snd) t ctr).1 = .ok (tf, cf) →
      (uidsE t).Nodup →
      (∀ d ∈ uidsE t, d < ctr) →
      (∀ gi ∈ pairs, ∃ p, p ∈ preorderL t.children ∧ p.uid = gi.1.uid ∧
        p.tag = gTag ∧ gi.2 ∈ p.children) →
      (∀ gi ∈ pairs, parentLookup pm gi.2.uid = some gi.1.uid) →
      ((pairs.map (fun gi => gi.2.uid)).Nodup) →
      (∀ gi ∈ pairs, ∀ gj ∈ pairs, gj.1.uid ∉ uidsE gi.2) →
      ((uidsE tf).Nodup
      ∧ (∀ d ∈ uidsE tf, d < cf)
      ∧ (∀ d, d < ctr → (uidsE tf).count d ≤ (uidsE t).count d)
      ∧ (∀ gi ∈ pairs, ∀ d ∈ uidsE gi.2, d ∉ uidsE tf)
      ∧ (∀ x : Element,
          (∀ gi ∈ pairs, (preorder gi.2).count x = 0 ∧ gi.1.uid ∉ uidsE x) →
          occursCount x t ≤ occursCount x tf)
      ∧ (∀ gi ∈ pairs, ∀ fn stored,
          lookupA gi.2.attrib hrefKey = some fn →
          fsLookup fs (replacePngSvg fn) = some (some stored) →
          ∃ r', eqNoUidE r' (mergedRoot gi.2 stored) = true ∧
            1 ≤ occursCount r' tf)) := by
  intro pairs
  induction pairs with
  | nil =>
    intro t ctr tf cf h hnd hbound _ _ _ _
    have h' : (Except.ok (t, ctr) : Except InlineError (Element × Nat)) = .ok (tf, cf) := h
    injection h' with h'
    injection h' with he hc
    subst he
    subst hc
    refine ⟨hnd, hbound, fun d _ => Nat.le_refl _, ?_, ?_, ?_⟩
    · intro gi hgi; simp at hgi
    · intro x _; exact Nat.le_refl _
    · intro gi hgi; simp at hgi
  | cons gi rest ih =>
    intro t ctr tf cf h hnd hbound hpairs hpm hdist hsep
    obtain ⟨p0, hp0m, hp0u, hp0t, himgc⟩ := hpairs gi (List.mem_cons_self _ _)
    have himgT : gi.2 ∈ preorder t :=
      child_mem_E t p0 gi.2 (mem_preorder_of_strict t p0 hp0m) himgc
    have himguids : ∀ d ∈ uidsE gi.2, d ∈ uidsE t := by
      intro d hd
      obtain ⟨x, hx, hxu⟩ := List.mem_map.mp hd
      exact hxu ▸ uid_mem_uidsE t x (preorder_trans_E t x gi.2 himgT hx)
    -- the head iteration cannot fail, so its lookups succeed
    cases hfn : lookupA gi.2.attrib hrefKey with
    | none =>
      rw [List.map_cons] at h
      simp [processImgs, hfn] at h
    | some fn =>
    cases hfs : fsLookup fs (replacePngSvg fn) with
    | none =>
      rw [List.map_cons] at h
      simp [processImgs, hfn, hfs] at h
    | some o =>
    cases o with
    | none =>
      rw [List.map_cons] at h
      simp [processImgs, hfn, hfs] at h
    | some stored =>
    have hpm1 : parentLookup pm gi.2.uid = some gi.1.uid :=
      hpm gi (List.mem_cons_self _ _)
    rw [List.map_cons] at h
    simp only [processImgs, hfn, hfs, hpm1] at h
    -- names for the step's pieces
    have hpair0 : ∃ p, p ∈ preorderL t.children ∧ p.uid = gi.1.uid ∧
        p.tag = gTag ∧ gi.2 ∈ p.children := ⟨p0, hp0m, hp0u, hp0t, himgc⟩
    have hsnb := step_nodup_bound t gi.1.uid gi.2 stored ctr
      (mergedRoot gi.2 (renumberE ctr stored).1) rfl hnd hbound hpair0
    have hctr' : (renumberE ctr stored).2 = ctr + sizeE stored :=
      renumberE_snd stored ctr
    have hruids : uidsE (mergedRoot gi.2 (renumberE ctr stored).1)
        = List.range' ctr (sizeE stored) := by
      rw [mergedRoot_uidsE, renumberE_uids]
    have hkey : ∀ d, (uidsE (updE gi.1.uid
          (fun cs => spliceChildren cs gi.2.uid
            (mergedRoot gi.2 (renumberE ctr stored).1)) t)).count d
        + (uidsE gi.2).count d
        = (uidsE t).count d
          + (uidsE (mergedRoot gi.2 (renumberE ctr stored).1)).count d := by
      intro d
      have hk := step_uid_eq t gi.1.uid gi.2
        (mergedRoot gi.2 (renumberE ctr stored).1) d hnd hpair0
      rw [uidCount_eq_count, uidCount_eq_count] at hk
      exact hk
    -- attachment of the pending pairs in the new tree
    have hPairsRest : ∀ gj ∈ rest, ∃ p,
        p ∈ preorderL (updE gi.1.uid
          (fun cs => spliceChildren cs gi.2.uid
            (mergedRoot gi.2 (renumberE ctr stored).1)) t).children ∧
        p.uid = gj.1.uid ∧ p.tag = gTag ∧ gj.2 ∈ p.children := by
      intro gj hgj
      have hxu : gj.2.uid ≠ gi.2.uid := by
        intro he
        rw [List.map_cons, List.nodup_cons] at hdist
        exact hdist.1 (he ▸ List.mem_map.mpr ⟨gj, hgj, rfl⟩)
      have hxp : gi.1.uid ∉ uidsE gj.2 :=
        hsep gj (List.mem_cons_of_mem _ hgj) gi (List.mem_cons_self _ _)
      have hcond : ∀ n ∈ preorder t, n.uid = gi.2.uid →
          gj.1.uid ∉ uidsE n ∧ gi.1.uid ∉ uidsE n := by
        intro n hn hnu
        have hne : n = gi.2 := uid_inj_preorder t hnd n gi.2 hn himgT hnu
        subst hne
        exact ⟨hsep gi (List.mem_cons_self _ _) gj (List.mem_cons_of_mem _ hgj),
          hsep gi (List.mem_cons_self _ _) gi (List.mem_cons_self _ _)⟩
      obtain ⟨pj, hpjm, hpju, hpjt, hpjc⟩ := hpairs gj (List.mem_cons_of_mem _ hgj)
      obtain ⟨p', hp', hp'u, hp't, hp'c⟩ :=
        memG_pres_E gi.1.uid gi.2.uid (mergedRoot gi.2 (renumberE ctr stored).1)
          gj.1.uid gj.2 hxu hxp t hcond
          ⟨pj, mem_preorder_of_strict t pj hpjm, hpju, hpjt, hpjc⟩
      refine ⟨p', ?_, hp'u, hp't, hp'c⟩
      have hroot_ne : (updE gi.1.uid
          (fun cs => spliceChildren cs gi.2.uid
            (mergedRoot gi.2 (renumberE ctr stored).1)) t).uid ≠ p'.uid := by
        rw [updE_uid, hp'u]
        intro he
        cases t with
        | mk v tg a cs =>
          have hvv := (nodup_uidsE_parts v tg a cs hnd).1
          have he' : v = gj.1.uid := he
          simp only [Element.children] at hpjm
          have hm := uid_mem_uidsL cs pj hpjm
          rw [hpju, ← he'] at hm
          exact hvv hm
      rcases mem_preorder_cases _ _ hp' with hc | hc
      · exact absurd (congrArg Element.uid hc).symm (by rw [hp'u] at hroot_ne ⊢; exact hroot_ne)
      · exact hc
    -- apply the induction hypothesis to the mutated state
    have hrec := ih (updE gi.1.uid
        (fun cs => spliceChildren cs gi.2.uid
          (mergedRoot gi.2 (renumberE ctr stored).1)) t)
      (renumberE ctr stored).2 tf cf h hsnb.1 hsnb.2 hPairsRest
      (fun gj hgj => hpm gj (List.mem_cons_of_mem _ hgj))
      (by rw [List.map_cons, List.nodup_cons] at hdist; exact hdist.2)
      (fun gj hgj gk hgk =>
        hsep gj (List.mem_cons_of_mem _ hgj) gk (List.mem_cons_of_mem _ hgk))
    obtain ⟨c1, c2, c3, c4, c5, c6⟩ := hrec
    have hctrle : ctr ≤ (renumberE ctr stored).2 := by omega
    -- count monotonicity below ctr
    have hmono : ∀ d, d < ctr → (uidsE tf).count d ≤ (uidsE t).count d := by
      intro d hd
      have hk := hkey d
      have hr0 : (uidsE (mergedRoot gi.2 (renumberE ctr stored).1)).count d = 0 := by
        rw [hruids, List.count_eq_zero]
        intro hmem
        rw [List.mem_range'] at hmem
        obtain ⟨i, hi, he⟩ := hmem
        omega
      have h3 := c3 d (by omega)
      omega
    refine ⟨c1, c2, hmono, ?_, ?_, ?_⟩
    · -- every pending placeholder's subtree uids are gone from the output
      intro gj hgj d hd
      rcases List.mem_cons.mp hgj with hx | hx
      · subst hx
        have hk := hkey d
        have hdimg : 1 ≤ (uidsE gj.2).count d := List.count_pos_iff.mpr hd
        have hdt : d ∈ uidsE t := himguids d hd
        have hdlt : d < ctr := hbound d hdt
        have hr0 : (uidsE (mergedRoot gj.2 (renumberE ctr stored).1)).count d = 0 := by
          rw [hruids, List.count_eq_zero]
          intro hmem
          rw [List.mem_range'] at hmem
          obtain ⟨i, hi, he⟩ := hmem
          omega
        have ht1 : (uidsE t).count d ≤ 1 := List.nodup_iff_count_le_one.mp hnd d
        have hzero : (uidsE (updE gj.1.uid
            (fun cs => spliceChildren cs gj.2.uid
              (mergedRoot gj.2 (renumberE ctr stored).1)) t)).count d = 0 := by
          omega
        have h3 := c3 d (by omega)
        intro hmemf
        have := List.count_pos_iff.mpr hmemf
        omega
      · exact c4 gj hx d hd
    · -- occurrence preservation for values clear of the pending subtrees
      intro x hx
      obtain ⟨hximg, hxg⟩ := hx gi (List.mem_cons_self _ _)
      have hwx : ∀ pt e, gi.1.uid ∈ uidsE e →
          wElem x pt (updE gi.1.uid
            (fun cs => spliceChildren cs gi.2.uid
              (mergedRoot gi.2 (renumberE ctr stored).1)) e) = wElem x pt e :=
        hw_wElem x gi.1.uid _ hxg
      have hS3 := step_weight_eq (wElem x) t gi.1.uid gi.2
        (mergedRoot gi.2 (renumberE ctr stored).1) hnd hpair0 hwx
      have himgterm : wcountE (wElem x) (some gTag) gi.2 = 0 := by
        rw [wElem_count_E]
        exact hximg
      have hstep : occursCount x t ≤ occursCount x (updE gi.1.uid
          (fun cs => spliceChildren cs gi.2.uid
            (mergedRoot gi.2 (renumberE ctr stored).1)) t) := by
        unfold occursCount
        omega
      have hrest := c5 x (fun gj hgj => hx gj (List.mem_cons_of_mem _ hgj))
      exact Nat.le_trans hstep hrest
    · -- every spliced root stays in the output
      intro gj hgj fn' stored' hfn' hfs'
      rcases List.mem_cons.mp hgj with hx | hx
      · subst hx
        rw [hfn] at hfn'
        injection hfn' with hfn'
        subst hfn'
        rw [hfs] at hfs'
        injection hfs' with hfs'
        injection hfs' with hfs'
        subst hfs'
        refine ⟨mergedRoot gj.2 (renumberE ctr stored).1, ?_, ?_⟩
        · exact eqNoUid_mergedRoot_congr gj.2 _ stored (renumberE_eqNoUid stored ctr)
        · -- it appears after the step, and is never removed later
          have hfresh : (mergedRoot gj.2 (renumberE ctr stored).1).uid = ctr := by
            rw [mergedRoot_uid, renumberE_fst_uid]
          have hne : gj.1.uid ∉ uidsE (mergedRoot gj.2 (renumberE ctr stored).1) := by
            rw [hruids]
            intro hmem
            rw [List.mem_range'] at hmem
            obtain ⟨i, hi, he⟩ := hmem
            have : gj.1.uid ∈ uidsE t := by
              rw [← hp0u]
              exact uid_mem_uidsE t p0 (mem_preorder_of_strict t p0 hp0m)
            have := hbound _ this
            omega
          have hwx := hw_wElem (mergedRoot gj.2 (renumberE ctr stored).1)
            gj.1.uid (fun cs => spliceChildren cs gj.2.uid
              (mergedRoot gj.2 (renumberE ctr stored).1)) hne
          have hS3 := step_weight_eq (wElem (mergedRoot gj.2 (renumberE ctr stored).1))
            t gj.1.uid gj.2 (mergedRoot gj.2 (renumberE ctr stored).1) hnd hpair0 hwx
          have himgterm : wcountE (wElem (mergedRoot gj.2 (renumberE ctr stored).1))
              (some gTag) gj.2 = 0 := by
            rw [wElem_count_E, List.count_eq_zero]
            intro hmem
            have : (mergedRoot gj.2 (renumberE ctr stored).1).uid ∈ uidsE gj.2 :=
              uid_mem_uidsE gj.2 _ hmem
            have h1 := himguids _ this
            have h2 := hbound _ h1
            rw [hfresh] at h2
            omega
          have hself : 1 ≤ wcountE (wElem (mergedRoot gj.2 (renumberE ctr stored).1))
              (some gTag) (mergedRoot gj.2 (renumberE ctr stored).1) := by
            have := wcount_ge_E (wElem (mergedRoot gj.2 (renumberE ctr stored).1))
              (fun _ _ _ => rfl) (mergedRoot gj.2 (renumberE ctr stored).1)
              (mergedRoot gj.2 (renumberE ctr stored).1) (some gTag)
              (self_mem_preorder _)
            have hone : wElem (mergedRoot gj.2 (renumberE ctr stored).1) (some gTag)
                (mergedRoot gj.2 (renumberE ctr stored).1) = 1 := by
              simp [wElem]
            omega
          have hafter : 1 ≤ occursCount (mergedRoot gj.2 (renumberE ctr stored).1)
              (updE gj.1.uid (fun cs => spliceChildren cs gj.2.uid
                (mergedRoot gj.2 (renumberE ctr stored).1)) t) := by
            unfold occursCount
            omega
          have hpers := c5 (mergedRoot gj.2 (renumberE ctr stored).1) ?_
          · exact Nat.le_trans hafter hpers
          · intro gk hgk
            constructor
            · rw [List.count_eq_zero]
              intro hmem
              obtain ⟨pk, hpkm, hpku, hpkt, hpkc⟩ := hpairs gk (List.mem_cons_of_mem _ hgk)
              have hkT : gk.2 ∈ preorder t :=
                child_mem_E t pk gk.2 (mem_preorder_of_strict t pk hpkm) hpkc
              have : (mergedRoot gj.2 (renumberE ctr stored).1).uid ∈ uidsE t :=
                uid_mem_uidsE t _ (preorder_trans_E t _ gk.2 hkT hmem)
              have := hbound _ this
              rw [hfresh] at this
              omega
            · intro hmem
              rw [hruids, List.mem_range'] at hmem
              obtain ⟨i, hi, he⟩ := hmem
              obtain ⟨pk, hpkm, hpku, hpkt, hpkc⟩ := hpairs gk (List.mem_cons_of_mem _ hgk)
              have : gk.1.uid ∈ uidsE t := by
                rw [← hpku]
                exact uid_mem_uidsE t pk (mem_preorder_of_strict t pk hpkm)
              have := hbound _ this
              omega
      · exact c6 gj hx fn' stored' hfn' hfs'

theorem wPair_le_wImage : ∀ pt (e : Element), wPair pt e ≤ wImage pt e := by
  intro pt e
  unfold wPair wImage
  by_cases h : pt = some gTag ∧ e.tag = imageTag
  · rw [if_pos h, if_pos h.2]
  · rw [if_neg h]
    exact Nat.zero_le _

theorem hwImage_tag : ∀ pt (e1 e2 : Element), e1.tag = e2.tag →
    wImage pt e1 = wImage pt e2 := by
  intro pt e1 e2 h
  unfold wImage
  rw [h]

theorem hwPair_tag : ∀ pt (e1 e2 : Element), e1.tag = e2.tag →
    wPair pt e1 = wPair pt e2 := by
  intro pt e1 e2 h
  unfold wPair
  rw [h]

/-- A placeholder that is the only image-tagged node of its own subtree
contributes exactly one g/image pair when viewed under a g parent. -/
theorem wPair_one_of_single_image (e : Element) (ht : e.tag = imageTag)
    (h1 : wcountE wImage (some gTag) e = 1) :
    wcountE wPair (some gTag) e = 1 := by
  cases e with
  | mk v tg a cs =>
    simp only [Element.tag] at ht
    subst ht
    rw [wcountE_mk] at h1 ⊢
    have htag : (Element.mk v imageTag a cs).tag = imageTag := rfl
    have hroot : wImage (some gTag) (Element.mk v imageTag a cs) = 1 := by
      simp [wImage, htag]
    have hcs0 : wcountL wImage (some imageTag) cs = 0 := by omega
    have hmono := wcount_mono_L wPair wImage wPair_le_wImage cs (some imageTag)
    have hroot' : wPair (some gTag) (Element.mk v imageTag a cs) = 1 := by
      simp [wPair, htag]
    omega

/-- The loop invariant, part B: when every pending placeholder is the only
image-tagged node of its subtree and every referenced tree holds no
image-tagged node, each loop iteration removes exactly one image element and
exactly one g/image match. -/
theorem processImgs_invB (fs : FS) (pm : List (Nat × Nat)) :
    ∀ (pairs : List (Element × Element)) (t : Element) (ctr : Nat)
      (tf : Element) (cf : Nat),
      (processImgs fs pm (pairs.map Prod.snd) t ctr).1 = .ok (tf, cf) →
      (uidsE t).Nodup →
      (∀ d ∈ uidsE t, d < ctr) →
      (∀ gi ∈ pairs, ∃ p, p ∈ preorderL t.children ∧ p.uid = gi.1.uid ∧
        p.tag = gTag ∧ gi.2 ∈ p.children) →
      (∀ gi ∈ pairs, parentLookup pm gi.2.uid = some gi.1.uid) →
      ((pairs.map (fun gi => gi.2.uid)).Nodup) →
      (∀ gi ∈ pairs, ∀ gj ∈ pairs, gj.1.uid ∉ uidsE gi.2) →
      (∀ gi ∈ pairs, gi.2.tag = imageTag ∧ wcountE wImage (some gTag) gi.2 = 1) →
      (∀ gi ∈ pairs, ∀ fn stored,
          lookupA gi.2.attrib hrefKey = some fn →
          fsLookup fs (replacePngSvg fn) = some (some stored) →
          wcountE wImage (some gTag) stored = 0) →
      (countImages tf + pairs.length = countImages t ∧
       matchedCount tf + pairs.length = matchedCount t) := by
  intro pairs
  induction pairs with
  | nil =>
    intro t ctr tf cf h _ _ _ _ _ _ _ _
    have h' : (Except.ok (t, ctr) : Except InlineError (Element × Nat)) = .ok (tf, cf) := h
    injection h' with h'
    injection h' with he hc
    subst he
    simp
  | cons gi rest ih =>
    intro t ctr tf cf h hnd hbound hpairs hpm hdist hsep hH2 hH3
    obtain ⟨p0, hp0m, hp0u, hp0t, himgc⟩ := hpairs gi (List.mem_cons_self _ _)
    have himgT : gi.2 ∈ preorder t :=
      child_mem_E t p0 gi.2 (mem_preorder_of_strict t p0 hp0m) himgc
    cases hfn : lookupA gi.2.attrib hrefKey with
    | none =>
      rw [List.map_cons] at h
      simp [processImgs, hfn] at h
    | some fn =>
    cases hfs : fsLookup fs (replacePngSvg fn) with
    | none =>
      rw [List.map_cons] at h
      simp [processImgs, hfn, hfs] at h
    | some o =>
    cases o with
    | none =>
      rw [List.map_cons] at h
      simp [processImgs, hfn, hfs] at h
    | some stored =>
    have hpm1 : parentLookup pm gi.2.uid = some gi.1.uid :=
      hpm gi (List.mem_cons_self _ _)
    rw [List.map_cons] at h
    simp only [processImgs, hfn, hfs, hpm1] at h
    have hpair0 : ∃ p, p ∈ preorderL t.children ∧ p.uid = gi.1.uid ∧
        p.tag = gTag ∧ gi.2 ∈ p.children := ⟨p0, hp0m, hp0u, hp0t, himgc⟩
    have hsnb := step_nodup_bound t gi.1.uid gi.2 stored ctr
      (mergedRoot gi.2 (renumberE ctr stored).1) rfl hnd hbound hpair0
    have hPairsRest : ∀ gj ∈ rest, ∃ p,
        p ∈ preorderL (updE gi.1.uid
          (fun cs => spliceChildren cs gi.2.uid
            (mergedRoot gi.2 (renumberE ctr stored).1)) t).children ∧
        p.uid = gj.1.uid ∧ p.tag = gTag ∧ gj.2 ∈ p.children := by
      intro gj hgj
      have hxu : gj.2.uid ≠ gi.2.uid := by
        intro he
        rw [List.map_cons, List.nodup_cons] at hdist
        exact hdist.1 (he ▸ List.mem_map.mpr ⟨gj, hgj, rfl⟩)
      have hxp : gi.1.uid ∉ uidsE gj.2 :=
        hsep gj (List.mem_cons_of_mem _ hgj) gi (List.mem_cons_self _ _)
      have hcond : ∀ n ∈ preorder t, n.uid = gi.2.uid →
          gj.1.uid ∉ uidsE n ∧ gi.1.uid ∉ uidsE n := by
        intro n hn hnu
        have hne : n = gi.2 := uid_inj_preorder t hnd n gi.2 hn himgT hnu
        subst hne
        exact ⟨hsep gi (List.mem_cons_self _ _) gj (List.mem_cons_of_mem _ hgj),
          hsep gi (List.mem_cons_self _ _) gi (List.mem_cons_self _ _)⟩
      obtain ⟨pj, hpjm, hpju, hpjt, hpjc⟩ := hpairs gj (List.mem_cons_of_mem _ hgj)
      obtain ⟨p', hp', hp'u, hp't, hp'c⟩ :=
        memG_pres_E gi.1.uid gi.2.uid (mergedRoot gi.2 (renumberE ctr stored).1)
          gj.1.uid gj.2 hxu hxp t hcond
          ⟨pj, mem_preorder_of_strict t pj hpjm, hpju, hpjt, hpjc⟩
      refine ⟨p', ?_, hp'u, hp't, hp'c⟩
      have hroot_ne : (updE gi.1.uid
          (fun cs => spliceChildren cs gi.2.uid
            (mergedRoot gi.2 (renumberE ctr stored).1)) t).uid ≠ p'.uid := by
        rw [updE_uid, hp'u]
        intro he
        cases t with
        | mk v tg a cs =>
          have hvv := (nodup_uidsE_parts v tg a cs hnd).1
          have he' : v = gj.1.uid := he
          simp only [Element.children] at hpjm
          have hm := uid_mem_uidsL cs pj hpjm
          rw [hpju, ← he'] at hm
          exact hvv hm
      rcases mem_preorder_cases _ _ hp' with hc | hc
      · exact absurd (congrArg Element.uid hc).symm (by rw [hp'u] at hroot_ne ⊢; exact hroot_ne)
      · exact hc
    have hrec := ih (updE gi.1.uid
        (fun cs => spliceChildren cs gi.2.uid
          (mergedRoot gi.2 (renumberE ctr stored).1)) t)
      (renumberE ctr stored).2 tf cf h hsnb.1 hsnb.2 hPairsRest
      (fun gj hgj => hpm gj (List.mem_cons_of_mem _ hgj))
      (by rw [List.map_cons, List.nodup_cons] at hdist; exact hdist.2)
      (fun gj hgj gk hgk =>
        hsep gj (List.mem_cons_of_mem _ hgj) gk (List.mem_cons_of_mem _ hgk))
      (fun gj hgj => hH2 gj (List.mem_cons_of_mem _ hgj))
      (fun gj hgj => hH3 gj (List.mem_cons_of_mem _ hgj))
    -- the step removes exactly one image element
    have hSimg := step_weight_eq wImage t gi.1.uid gi.2
      (mergedRoot gi.2 (renumberE ctr stored).1) hnd hpair0
      (hw_of_tag wImage hwImage_tag gi.1.uid _)
    have himg1 : wcountE wImage (some gTag) gi.2 = 1 :=
      (hH2 gi (List.mem_cons_self _ _)).2
    have hr0 : wcountE wImage (some gTag)
        (mergedRoot gi.2 (renumberE ctr stored).1) = 0 := by
      rw [wcountE_mergedRoot wImage hwImage_tag,
        wcount_eqNoUid_E wImage hwImage_tag _ stored (some gTag)
          (renumberE_eqNoUid stored ctr)]
      exact hH3 gi (List.mem_cons_self _ _) fn stored hfn hfs
    -- the step removes exactly one matched pair
    have hSpair := step_matched_eq t gi.1.uid gi.2
      (mergedRoot gi.2 (renumberE ctr stored).1) hnd hpair0
    have hpair1 : wcountE wPair (some gTag) gi.2 = 1 :=
      wPair_one_of_single_image gi.2 (hH2 gi (List.mem_cons_self _ _)).1 himg1
    have hpr0 : wcountE wPair (some gTag)
        (mergedRoot gi.2 (renumberE ctr stored).1) = 0 := by
      have hle := wcount_mono_E wPair wImage wPair_le_wImage
        (mergedRoot gi.2 (renumberE ctr stored).1) (some gTag)
      omega
    rw [himg1, hr0] at hSimg
    rw [hpair1, hpr0] at hSpair
    unfold countImages at hrec ⊢
    simp only [List.length_cons]
    omega

/-! ## The appended root lands last (lines 63-64) -/

theorem removeFirstUid_concat (u : Nat) (r : Element) (h : r.uid ≠ u) :
    ∀ cs : List Element, removeFirstUid (cs ++ [r]) u = removeFirstUid cs u ++ [r] := by
  intro cs
  induction cs with
  | nil => simp [removeFirstUid, h]
  | cons c cs ih =>
    by_cases hc : c.uid = u
    · simp [removeFirstUid, hc]
    · simp [removeFirstUid, hc, ih]

theorem spliceChildren_getLast (cs : List Element) (u : Nat) (r : Element)
    (h : r.uid ≠ u) : (spliceChildren cs u r).getLast? = some r := by
  unfold spliceChildren
  rw [removeFirstUid_concat u r h cs]
  exact List.getLast?_concat _

/-! ## Unpacking a successful run -/

theorem inlineRoot_ok_unpack (fs : FS) (root tf : Element)
    (hok : (inlineRoot fs root).1 = .ok tf) :
    ∃ cf, (processImgs fs (parentEntries root) ((findPairs root).map Prod.snd)
      root (maxUid root + 1)).1 = .ok (tf, cf) := by
  simp only [inlineRoot] at hok
  rw [← image_tags_eq_map_snd]
  cases hr : (processImgs fs (parentEntries root) (image_tags root) root
      (maxUid root + 1)).1 with
  | error e =>
    rw [hr] at hok
    simp [Except.map] at hok
  | ok pr =>
    rw [hr] at hok
    simp only [Except.map] at hok
    injection hok with hok
    exact ⟨pr.2, by rw [← hok]⟩

theorem findPairs_init (root : Element) :
    ∀ gi ∈ findPairs root, ∃ p, p ∈ preorderL root.children ∧ p.uid = gi.1.uid ∧
      p.tag = gTag ∧ gi.2 ∈ p.children := by
  rintro ⟨g, img⟩ hgi
  obtain ⟨h1, h2, h3, _⟩ := (mem_findPairs root g img).mp hgi
  exact ⟨g, h1, rfl, h2, h3⟩


/-- C6: one successful loop iteration (lines 54-64) appends the merged
referenced root and then removes the placeholder, so in the mutated tree the
placeholder's parent has the spliced root as its last child, regardless of
the placeholder's original position among its siblings. -/
theorem claim_C6_spliced_root_is_last_child
    (fs : FS) (pm : List (Nat × Nat)) (img : Element) (rest : List Element)
    (t : Element) (ctr : Nat) (fn : String) (stored : Element) (pu : Nat)
    (p : Element)
    (hfn : lookupA img.attrib hrefKey = some fn)
    (hfs : fsLookup fs (replacePngSvg fn) = some (some stored))
    (hpm : parentLookup pm img.uid = some pu)
    (hnd : (uidsE t).Nodup)
    (hp : nodeAt t pu = some p)
    (hne : img.uid ≠ ctr) :
    (processImgs fs pm (img :: rest) t ctr
      = ((processImgs fs pm rest
            (updE pu (fun cs => spliceChildren cs img.uid
              (mergedRoot img (renumberE ctr stored).1)) t)
            (renumberE ctr stored).2).1,
         replacePngSvg fn
           :: (processImgs fs pm rest
                (updE pu (fun cs => spliceChildren cs img.uid
                  (mergedRoot img (renumberE ctr stored).1)) t)
                (renumberE ctr stored).2).2))
    ∧ ∃ p', nodeAt (updE pu (fun cs => spliceChildren cs img.uid
          (mergedRoot img (renumberE ctr stored).1)) t) pu = some p'
        ∧ p'.children = spliceChildren p.children img.uid
            (mergedRoot img (renumberE ctr stored).1)
        ∧ p'.children.getLast? = some (mergedRoot img (renumberE ctr stored).1) := by
  have hru : (mergedRoot img (renumberE ctr stored).1).uid = ctr := by
    rw [mergedRoot_uid, renumberE_fst_uid]
  constructor
  · simp only [processImgs, hfn, hfs, hpm]
  · refine ⟨_, nodeAt_updE pu _ t hnd p hp, rfl, ?_⟩
    show (spliceChildren p.children img.uid
      (mergedRoot img (renumberE ctr stored).1)).getLast? = _
    exact spliceChildren_getLast p.children img.uid _ (by rw [hru]; exact fun h => hne h.symm)

/-- Witness for C6: a placeholder that is the first of two siblings; after
the iteration the parent's children are the remaining sibling followed by
the spliced root, which is the last child. -/
theorem claim_C6_witness :
    nodeAt (Element.mk 0 (qn svgNS "svg") []
        [Element.mk 1 gTag []
          [Element.mk 2 imageTag [(hrefKey, "a.png")] [],
           Element.mk 3 "rect" [] []]]) 1
      = some (Element.mk 1 gTag []
          [Element.mk 2 imageTag [(hrefKey, "a.png")] [],
           Element.mk 3 "rect" [] []])
    ∧ (∃ p', nodeAt (updE 1 (fun cs => spliceChildren cs
          (Element.mk 2 imageTag [(hrefKey, "a.png")] []).uid
          (mergedRoot (Element.mk 2 imageTag [(hrefKey, "a.png")] [])
            (renumberE 4 (Element.mk 0 (qn svgNS "svg") [] [])).1))
          (Element.mk 0 (qn svgNS "svg") []
            [Element.mk 1 gTag []
              [Element.mk 2 imageTag [(hrefKey, "a.png")] [],
               Element.mk 3 "rect" [] []]])) 1 = some p'
        ∧ p'.children = spliceChildren
            (Element.mk 1 gTag []
              [Element.mk 2 imageTag [(hrefKey, "a.png")] [],
               Element.mk 3 "rect" [] []]).children
            (Element.mk 2 imageTag [(hrefKey, "a.png")] []).uid
            (mergedRoot (Element.mk 2 imageTag [(hrefKey, "a.png")] [])
              (renumberE 4 (Element.mk 0 (qn svgNS "svg") [] [])).1)
        ∧ p'.children.getLast? = some (mergedRoot
            (Element.mk 2 imageTag [(hrefKey, "a.png")] [])
            (renumberE 4 (Element.mk 0 (qn svgNS "svg") [] [])).1)) := by
  have h := claim_C6_spliced_root_is_last_child
    [("a.svg", some (Element.mk 0 (qn svgNS "svg") [] []))] [(2, 1)]
    (Element.mk 2 imageTag [(hrefKey, "a.png")] []) []
    (Element.mk 0 (qn svgNS "svg") []
      [Element.mk 1 gTag []
        [Element.mk 2 imageTag [(hrefKey, "a.png")] [],
         Element.mk 3 "rect" [] []]]) 4 "a.png"
    (Element.mk 0 (qn svgNS "svg") [] []) 1
    (Element.mk 1 gTag []
      [Element.mk 2 imageTag [(hrefKey, "a.png")] [],
       Element.mk 3 "rect" [] []])
    rfl rfl rfl (by decide) rfl (by decide)
  exact ⟨rfl, h.2⟩

/-- Counterexample to C5: one placeholder resolvable to a well-formed file
whose root is itself an svg-namespace image element.  The run succeeds, but
the output still matches the placeholder pattern once (an image element
directly under a g element) and holds exactly as many image elements as the
input — not N fewer with zero placeholders left. -/
theorem claim_C5_counterexample :
    (inlineRoot [("a.svg", some (Element.mk 0 imageTag [] []))]
        (Element.mk 0 (qn svgNS "svg") []
          [Element.mk 1 gTag [] [Element.mk 2 imageTag [(hrefKey, "a.png")] []]])).1
      = .ok (Element.mk 0 (qn svgNS "svg") []
          [Element.mk 1 gTag [] [Element.mk 3 imageTag [] []]])
    ∧ (image_tags (Element.mk 0 (qn svgNS "svg") []
        [Element.mk 1 gTag [] [Element.mk 2 imageTag [(hrefKey, "a.png")] []]])).length = 1
    ∧ countImages (Element.mk 0 (qn svgNS "svg") []
        [Element.mk 1 gTag [] [Element.mk 2 imageTag [(hrefKey, "a.png")] []]]) = 1
    ∧ countImages (Element.mk 0 (qn svgNS "svg") []
        [Element.mk 1 gTag [] [Element.mk 3 imageTag [] []]]) = 1
    ∧ matchedCount (Element.mk 0 (qn svgNS "svg") []
        [Element.mk 1 gTag [] [Element.mk 3 imageTag [] []]]) = 1 :=
  ⟨rfl, rfl, rfl, rfl, rfl⟩

/-- C5 (amended): on a uid-distinct input whose placeholders contain no
further image-tagged nodes, referencing files that hold no image-tagged
nodes, a successful run drops exactly one image element per match, leaves no
placeholder pattern in the output, and splices in each referenced root
(merged with the placeholder's attributes; equal up to the fresh node
identities of re-parsing) at least once. -/
theorem claim_C5_amended (fs : FS) (root tf : Element)
    (hnd : (uidsE root).Nodup)
    (hH2 : ∀ img ∈ image_tags root, wcountE wImage (some gTag) img = 1)
    (hH3 : ∀ img ∈ image_tags root, ∀ fn stored,
        lookupA img.attrib hrefKey = some fn →
        fsLookup fs (replacePngSvg fn) = some (some stored) →
        wcountE wImage (some gTag) stored = 0)
    (hok : (inlineRoot fs root).1 = .ok tf) :
    countImages tf + (image_tags root).length = countImages root
    ∧ image_tags tf = []
    ∧ ∀ gi ∈ findPairs root, ∀ fn stored,
        lookupA gi.2.attrib hrefKey = some fn →
        fsLookup fs (replacePngSvg fn) = some (some stored) →
        ∃ r', eqNoUidE r' (mergedRoot gi.2 stored) = true ∧
          1 ≤ occursCount r' tf := by
  obtain ⟨cf, hp⟩ := inlineRoot_ok_unpack fs root tf hok
  have hmem : ∀ gi, gi ∈ findPairs root → gi.2 ∈ image_tags root := by
    intro gi hgi
    rw [image_tags_eq_map_snd]
    exact List.mem_map.mpr ⟨gi, hgi, rfl⟩
  have htag : ∀ gi, gi ∈ findPairs root → gi.2.tag = imageTag := by
    rintro ⟨g, img⟩ hgi
    exact ((mem_findPairs root g img).mp hgi).2.2.2
  have hinvA := processImgs_invA fs (parentEntries root) (findPairs root) root
    (maxUid root + 1) tf cf hp hnd (maxUid_bound root) (findPairs_init root)
    (fun gi hgi => parentLookup_findPairs root hnd gi.1 gi.2 hgi)
    (findPairs_snd_uid_nodup root hnd)
    (findPairs_sep root hnd hH2)
  have hinvB := processImgs_invB fs (parentEntries root) (findPairs root) root
    (maxUid root + 1) tf cf hp hnd (maxUid_bound root) (findPairs_init root)
    (fun gi hgi => parentLookup_findPairs root hnd gi.1 gi.2 hgi)
    (findPairs_snd_uid_nodup root hnd)
    (findPairs_sep root hnd hH2)
    (fun gi hgi => ⟨htag gi hgi, hH2 gi.2 (hmem gi hgi)⟩)
    (fun gi hgi => hH3 gi.2 (hmem gi hgi))
  have hlen : (image_tags root).length = (findPairs root).length := by
    rw [image_tags_eq_map_snd, List.length_map]
  refine ⟨by rw [hlen]; exact hinvB.1, ?_, hinvA.2.2.2.2.2⟩
  have hm0 : matchedCount tf = 0 := by
    have h1 := hinvB.2
    have h2 := image_tags_length_eq root
    rw [hlen] at h2
    omega
  have := image_tags_length_eq tf
  rw [hm0] at this
  exact List.eq_nil_of_length_eq_zero this

/-- Witness for the amended C5: one placeholder, a referenced file with an
svg root; the output has one fewer image element, no remaining placeholder
pattern, and contains the merged referenced root. -/
theorem claim_C5_witness :
    (uidsE (Element.mk 0 (qn svgNS "svg") []
        [Element.mk 1 gTag [] [Element.mk 2 imageTag [(hrefKey, "a.png")] []]])).Nodup
    ∧ countImages (Element.mk 0 (qn svgNS "svg") []
        [Element.mk 1 gTag [] [Element.mk 3 (qn svgNS "svg") [("width", "5")] []]])
      + (image_tags (Element.mk 0 (qn svgNS "svg") []
          [Element.mk 1 gTag [] [Element.mk 2 imageTag [(hrefKey, "a.png")] []]])).length
      = countImages (Element.mk 0 (qn svgNS "svg") []
          [Element.mk 1 gTag [] [Element.mk 2 imageTag [(hrefKey, "a.png")] []]])
    ∧ image_tags (Element.mk 0 (qn svgNS "svg") []
        [Element.mk 1 gTag [] [Element.mk 3 (qn svgNS "svg") [("width", "5")] []]]) = []
    ∧ ∃ r', eqNoUidE r' (mergedRoot (Element.mk 2 imageTag [(hrefKey, "a.png")] [])
          (Element.mk 0 (qn svgNS "svg") [("width", "5")] [])) = true
        ∧ 1 ≤ occursCount r' (Element.mk 0 (qn svgNS "svg") []
            [Element.mk 1 gTag [] [Element.mk 3 (qn svgNS "svg") [("width", "5")] []]]) := by
  have h := claim_C5_amended
    [("a.svg", some (Element.mk 0 (qn svgNS "svg") [("width", "5")] []))]
    (Element.mk 0 (qn svgNS "svg") []
      [Element.mk 1 gTag [] [Element.mk 2 imageTag [(hrefKey, "a.png")] []]])
    (Element.mk 0 (qn svgNS "svg") []
      [Element.mk 1 gTag [] [Element.mk 3 (qn svgNS "svg") [("width", "5")] []]])
    (by decide) (by decide)
    (by
      intro img hm fn stored hfn hfs
      have he : image_tags (Element.mk 0 (qn svgNS "svg") []
          [Element.mk 1 gTag [] [Element.mk 2 imageTag [(hrefKey, "a.png")] []]])
          = [Element.mk 2 imageTag [(hrefKey, "a.png")] []] := rfl
      rw [he, List.mem_singleton] at hm
      subst hm
      injection hfn with hfn
      subst hfn
      injection hfs with hfs
      injection hfs with hfs
      subst hfs
      decide)
    (by rfl)
  exact ⟨by decide, h.1, h.2.1,
    h.2.2 (Element.mk 1 gTag [] [Element.mk 2 imageTag [(hrefKey, "a.png")] []],
      Element.mk 2 imageTag [(hrefKey, "a.png")] []) (by decide) "a.png"
      (Element.mk 0 (qn svgNS "svg") [("width", "5")] []) rfl rfl⟩

/-! ## Ancestors come first: the document-order separation that the search
order guarantees on any uid-distinct tree -/

theorem uids_sub_E (e p : Element) (hp : p ∈ preorder e) :
    ∀ d ∈ uidsE p, d ∈ uidsE e := by
  intro d hd
  obtain ⟨n, hn, hnu⟩ := List.mem_map.mp hd
  exact hnu ▸ uid_mem_uidsE e n (preorder_trans_E e n p hp hn)

theorem uids_sub_L (cs : List Element) (p : Element) (hp : p ∈ preorderL cs) :
    ∀ d ∈ uidsE p, d ∈ uidsL cs := by
  intro d hd
  obtain ⟨n, hn, hnu⟩ := List.mem_map.mp hd
  exact hnu ▸ uid_mem_uidsL cs n (preorder_trans_L cs n p hp hn)

theorem uid_not_in_child (e : Element) (hnd : (uidsE e).Nodup) :
    ∀ c ∈ e.children, e.uid ∉ uidsE c := by
  cases e with
  | mk v tg a cs =>
    intro c hc hmem
    have hparts := nodup_uidsE_parts v tg a cs hnd
    simp only [Element.children] at hc
    exact hparts.1 (uids_sub_L cs c
      (mem_preorderL_of_mem cs c c hc (self_mem_preorder c)) _ hmem)

theorem pairwise_of_mem {α : Type} (R : α → α → Prop) :
    ∀ l : List α, (∀ a ∈ l, ∀ b ∈ l, R a b) → List.Pairwise R l := by
  intro l
  induction l with
  | nil => intro _; exact List.Pairwise.nil
  | cons x xs ih =>
    intro h
    refine List.Pairwise.cons ?_ (ih ?_)
    · intro b hb
      exact h x (List.mem_cons_self _ _) b (List.mem_cons_of_mem _ hb)
    · intro a ha b hb
      exact h a (List.mem_cons_of_mem _ ha) b (List.mem_cons_of_mem _ hb)

theorem pairwise_flatMap {α β : Type} (R : β → β → Prop) (f : α → List β) :
    ∀ l : List α, (∀ a ∈ l, List.Pairwise R (f a)) →
      List.Pairwise (fun a b => ∀ x ∈ f a, ∀ y ∈ f b, R x y) l →
      List.Pairwise R (l.flatMap f) := by
  intro l
  induction l with
  | nil => intro _ _; simp
  | cons a l ih =>
    intro hall hpw
    rw [List.flatMap_cons, List.pairwise_append]
    obtain ⟨hhead, htail⟩ := List.pairwise_cons.mp hpw
    refine ⟨hall a (List.mem_cons_self _ _),
      ih (fun b hb => hall b (List.mem_cons_of_mem _ hb)) htail, ?_⟩
    intro x hx y hy
    obtain ⟨b, hb, hyb⟩ := List.mem_flatMap.mp hy
    exact hhead b hb x hx y hyb

mutual

theorem pairwise_anc_E : ∀ (e : Element), (uidsE e).Nodup →
    List.Pairwise (fun x y : Element => x.uid ∉ uidsE y) (preorder e)
  | .mk v tg a cs => by
    intro hnd
    rw [preorder_mk]
    obtain ⟨h1, h2⟩ := nodup_uidsE_parts v tg a cs hnd
    refine List.Pairwise.cons ?_ (pairwise_anc_L cs h2)
    intro y hy hmem
    exact h1 (uids_sub_L cs y hy _ hmem)

theorem pairwise_anc_L : ∀ (cs : List Element), (uidsL cs).Nodup →
    List.Pairwise (fun x y : Element => x.uid ∉ uidsE y) (preorderL cs)
  | [] => fun _ => List.Pairwise.nil
  | c :: cs => by
    intro hnd
    rw [preorderL_cons, List.pairwise_append]
    rw [uidsL_cons] at hnd
    have hl := List.Nodup.of_append_left hnd
    have hr := List.Nodup.of_append_right hnd
    have hdisj := List.disjoint_of_nodup_append hnd
    refine ⟨pairwise_anc_E c hl, pairwise_anc_L cs hr, ?_⟩
    intro x hx y hy hmem
    exact hdisj (uid_mem_uidsE c x hx) (uids_sub_L cs y hy x.uid hmem)

end

/-- No matched pair's parent g sits inside its own placeholder. -/
theorem findPairs_self_not_in (root : Element) (hnd : (uidsE root).Nodup) :
    ∀ gi ∈ findPairs root, gi.1.uid ∉ uidsE gi.2 := by
  rintro ⟨g, img⟩ hgi
  obtain ⟨hg, _, hic, _⟩ := (mem_findPairs root g img).mp hgi
  have hgm : g ∈ preorder root := mem_preorder_of_strict root g hg
  exact uid_not_in_child g (nodup_sub_E root g hgm hnd) img hic

/-- In the search's document order, an earlier matched parent g never sits
inside a later placeholder's subtree: a descendant is listed after its
ancestor, so the containing placeholder's pair would come first. -/
theorem findPairs_ord (root : Element) (hnd : (uidsE root).Nodup) :
    List.Pairwise (fun gi gj : Element × Element => gi.1.uid ∉ uidsE gj.2)
      (findPairs root) := by
  unfold findPairs
  have hndcs : (uidsL root.children).Nodup := by
    cases root with
    | mk v tg a cs => exact (nodup_uidsE_parts v tg a cs hnd).2
  have hfsub : List.Sublist
      (List.filter (fun e : Element => e.tag == gTag) (preorderL root.children))
      (preorderL root.children) :=
    List.filter_sublist _
  have hgs := List.Pairwise.sublist hfsub (pairwise_anc_L root.children hndcs)
  refine pairwise_flatMap _ _ _ ?_ ?_
  · intro g hg
    refine pairwise_of_mem _ _ ?_
    intro x hx y hy
    obtain ⟨cx, hcx, hxe⟩ := List.mem_map.mp hx
    obtain ⟨cy, hcy, hye⟩ := List.mem_map.mp hy
    subst hxe
    subst hye
    have hgm : g ∈ preorder root :=
      mem_preorder_of_strict root g (List.mem_filter.mp hg).1
    exact uid_not_in_child g (nodup_sub_E root g hgm hnd) cy
      ((mem_imageChildren g cy).mp hcy).1
  · refine List.Pairwise.imp ?_ hgs
    intro g g' hP x hx y hy
    obtain ⟨cx, hcx, hxe⟩ := List.mem_map.mp hx
    obtain ⟨cy, hcy, hye⟩ := List.mem_map.mp hy
    subst hxe
    subst hye
    intro hmem
    have hcy' : cy ∈ g'.children := ((mem_imageChildren g' cy).mp hcy).1
    exact hP (uids_sub_E g' cy
      (child_mem_E g' g' cy (self_mem_preorder g') hcy') g.uid hmem)

/-- Every matched pair's uids are below the loop's starting counter. -/
theorem findPairs_small (root : Element) :
    ∀ gi ∈ findPairs root, gi.1.uid < maxUid root + 1 ∧
      ∀ d ∈ uidsE gi.2, d < maxUid root + 1 := by
  rintro ⟨g, img⟩ hgi
  obtain ⟨hg, _, hic, _⟩ := (mem_findPairs root g img).mp hgi
  have hgm : g ∈ preorder root := mem_preorder_of_strict root g hg
  refine ⟨maxUid_bound root g.uid (uid_mem_uidsE root g hgm), ?_⟩
  intro d hd
  have himg : img ∈ preorder root := child_mem_E root g img hgm hic
  exact maxUid_bound root d (uids_sub_E root img himg d hd)

/-- The loop invariant, part C: with no assumption on nesting, every pending
pair is either still attached (its parent g in the tree with the placeholder
as a child) or already detached (parent uid and whole placeholder subtree
gone); in both cases a successful run ends with none of any pending
placeholder's subtree uids in the output.  An attached pair's iteration
splices and detaches every pair nested inside the removed subtree; a
detached pair's iteration looks up its parent in the stale parent map,
mutates nothing, and moves on. -/
theorem processImgs_invC (fs : FS) (pm : List (Nat × Nat)) :
    ∀ (pairs : List (Element × Element)) (t : Element) (ctr : Nat)
      (tf : Element) (cf : Nat),
      (processImgs fs pm (pairs.map Prod.snd) t ctr).1 = .ok (tf, cf) →
      (uidsE t).Nodup →
      (∀ d ∈ uidsE t, d < ctr) →
      (∀ gi ∈ pairs, gi.1.uid < ctr ∧ ∀ d ∈ uidsE gi.2, d < ctr) →
      (∀ gi ∈ pairs,
        (∃ p, p ∈ preorderL t.children ∧ p.uid = gi.1.uid ∧ p.tag = gTag ∧
          gi.2 ∈ p.children)
        ∨ (gi.1.uid ∉ uidsE t ∧ ∀ d ∈ uidsE gi.2, d ∉ uidsE t)) →
      (∀ gi ∈ pairs, parentLookup pm gi.2.uid = some gi.1.uid) →
      ((pairs.map (fun gi => gi.2.uid)).Nodup) →
      (∀ gi ∈ pairs, gi.1.uid ∉ uidsE gi.2) →
      (List.Pairwise (fun gi gj => gi.1.uid ∉ uidsE gj.2) pairs) →
      ((uidsE tf).Nodup
      ∧ (∀ d ∈ uidsE tf, d < cf)
      ∧ (∀ d, d < ctr → (uidsE tf).count d ≤ (uidsE t).count d)
      ∧ (∀ gi ∈ pairs, ∀ d ∈ uidsE gi.2, d ∉ uidsE tf)) := by
  intro pairs
  induction pairs with
  | nil =>
    intro t ctr tf cf h hnd hbound _ _ _ _ _ _
    have h' : (Except.ok (t, ctr) : Except InlineError (Element × Nat)) = .ok (tf, cf) := h
    injection h' with h'
    injection h' with he hc
    subst he
    subst hc
    refine ⟨hnd, hbound, fun d _ => Nat.le_refl _, ?_⟩
    intro gi hgi
    simp at hgi
  | cons gi rest ih =>
    intro t ctr tf cf h hnd hbound hsmall hAD hpm hdist hself hord
    cases hfn : lookupA gi.2.attrib hrefKey with
    | none =>
      rw [List.map_cons] at h
      simp [processImgs, hfn] at h
    | some fn =>
    cases hfs : fsLookup fs (replacePngSvg fn) with
    | none =>
      rw [List.map_cons] at h
      simp [processImgs, hfn, hfs] at h
    | some o =>
    cases o with
    | none =>
      rw [List.map_cons] at h
      simp [processImgs, hfn, hfs] at h
    | some stored =>
    have hpm1 : parentLookup pm gi.2.uid = some gi.1.uid :=
      hpm gi (List.mem_cons_self _ _)
    rw [List.map_cons] at h
    simp only [processImgs, hfn, hfs, hpm1] at h
    have hctrle : ctr ≤ (renumberE ctr stored).2 := by
      rw [renumberE_snd]
      omega
    have hsmall' : ∀ gj ∈ rest, gj.1.uid < (renumberE ctr stored).2 ∧
        ∀ d ∈ uidsE gj.2, d < (renumberE ctr stored).2 := by
      intro gj hgj
      obtain ⟨hs1, hs2⟩ := hsmall gj (List.mem_cons_of_mem _ hgj)
      exact ⟨Nat.lt_of_lt_of_le hs1 hctrle,
        fun d hd => Nat.lt_of_lt_of_le (hs2 d hd) hctrle⟩
    rcases hAD gi (List.mem_cons_self _ _) with hatt | hdet
    · -- the head pair is still attached: the iteration splices
      obtain ⟨p0, hp0m, hp0u, hp0t, himgc⟩ := hatt
      have himgT : gi.2 ∈ preorder t :=
        child_mem_E t p0 gi.2 (mem_preorder_of_strict t p0 hp0m) himgc
      have himguids : ∀ d ∈ uidsE gi.2, d ∈ uidsE t :=
        uids_sub_E t gi.2 himgT
      have hpair0 : ∃ p, p ∈ preorderL t.children ∧ p.uid = gi.1.uid ∧
          p.tag = gTag ∧ gi.2 ∈ p.children := ⟨p0, hp0m, hp0u, hp0t, himgc⟩
      have hsnb := step_nodup_bound t gi.1.uid gi.2 stored ctr
        (mergedRoot gi.2 (renumberE ctr stored).1) rfl hnd hbound hpair0
      have hruids : uidsE (mergedRoot gi.2 (renumberE ctr stored).1)
          = List.range' ctr (sizeE stored) := by
        rw [mergedRoot_uidsE, renumberE_uids]
      have hkey : ∀ d, (uidsE (updE gi.1.uid
            (fun cs => spliceChildren cs gi.2.uid
              (mergedRoot gi.2 (renumberE ctr stored).1)) t)).count d
          + (uidsE gi.2).count d
          = (uidsE t).count d
            + (uidsE (mergedRoot gi.2 (renumberE ctr stored).1)).count d := by
        intro d
        have hk := step_uid_eq t gi.1.uid gi.2
          (mergedRoot gi.2 (renumberE ctr stored).1) d hnd hpair0
        rw [uidCount_eq_count, uidCount_eq_count] at hk
        exact hk
      have hr0 : ∀ d, d < ctr →
          (uidsE (mergedRoot gi.2 (renumberE ctr stored).1)).count d = 0 := by
        intro d hd
        rw [hruids, List.count_eq_zero]
        intro hmem
        rw [List.mem_range'] at hmem
        obtain ⟨i, hi, he⟩ := hmem
        omega
      have hstepmono : ∀ d, d < ctr →
          (uidsE (updE gi.1.uid
            (fun cs => spliceChildren cs gi.2.uid
              (mergedRoot gi.2 (renumberE ctr stored).1)) t)).count d
          ≤ (uidsE t).count d := by
        intro d hd
        have h1 := hkey d
        have h2 := hr0 d hd
        omega
      have hkill : ∀ d ∈ uidsE gi.2,
          (uidsE (updE gi.1.uid
            (fun cs => spliceChildren cs gi.2.uid
              (mergedRoot gi.2 (renumberE ctr stored).1)) t)).count d = 0 := by
        intro d hd
        have hdt : d ∈ uidsE t := himguids d hd
        have hdlt : d < ctr := hbound d hdt
        have h1 := hkey d
        have h2 := hr0 d hdlt
        have h3 : 1 ≤ (uidsE gi.2).count d := List.count_pos_iff.mpr hd
        have h4 : (uidsE t).count d ≤ 1 := List.nodup_iff_count_le_one.mp hnd d
        omega
      have hAD' : ∀ gj ∈ rest,
          (∃ p, p ∈ preorderL (updE gi.1.uid
              (fun cs => spliceChildren cs gi.2.uid
                (mergedRoot gi.2 (renumberE ctr stored).1)) t).children ∧
            p.uid = gj.1.uid ∧ p.tag = gTag ∧ gj.2 ∈ p.children)
          ∨ (gj.1.uid ∉ uidsE (updE gi.1.uid
              (fun cs => spliceChildren cs gi.2.uid
                (mergedRoot gi.2 (renumberE ctr stored).1)) t) ∧
             ∀ d ∈ uidsE gj.2, d ∉ uidsE (updE gi.1.uid
              (fun cs => spliceChildren cs gi.2.uid
                (mergedRoot gi.2 (renumberE ctr stored).1)) t)) := by
        intro gj hgj
        rcases hAD gj (List.mem_cons_of_mem _ hgj) with hA | hD
        · by_cases hnest : gj.1.uid ∈ uidsE gi.2
          · -- gj sits inside the removed subtree: it becomes detached
            right
            refine ⟨List.count_eq_zero.mp (hkill gj.1.uid hnest), ?_⟩
            intro d hd
            obtain ⟨p, hpm', hpu, hpt, hc⟩ := hA
            obtain ⟨x, hx, hxu⟩ := List.mem_map.mp hnest
            have hxT : x ∈ preorder t := preorder_trans_E t x gi.2 himgT hx
            have hpT : p ∈ preorder t := mem_preorder_of_strict t p hpm'
            have hpx : p = x :=
              uid_inj_preorder t hnd p x hpT hxT (hpu.trans hxu.symm)
            have hgj2 : gj.2 ∈ preorder gi.2 := by
              rw [hpx] at hc
              exact child_mem_E gi.2 x gj.2 hx hc
            exact List.count_eq_zero.mp
              (hkill d (uids_sub_E gi.2 gj.2 hgj2 d hd))
          · -- gj's parent survives: the splice leaves the pair attached
            left
            have hxu2 : gj.2.uid ≠ gi.2.uid := by
              intro he
              rw [List.map_cons, List.nodup_cons] at hdist
              exact hdist.1 (he ▸ List.mem_map.mpr ⟨gj, hgj, rfl⟩)
            have hxp : gi.1.uid ∉ uidsE gj.2 :=
              (List.pairwise_cons.mp hord).1 gj hgj
            have hcond : ∀ n ∈ preorder t, n.uid = gi.2.uid →
                gj.1.uid ∉ uidsE n ∧ gi.1.uid ∉ uidsE n := by
              intro n hn hnu
              have hne : n = gi.2 := uid_inj_preorder t hnd n gi.2 hn himgT hnu
              subst hne
              exact ⟨hnest, hself gi (List.mem_cons_self _ _)⟩
            obtain ⟨pj, hpjm, hpju, hpjt, hpjc⟩ := hA
            obtain ⟨p', hp', hp'u, hp't, hp'c⟩ :=
              memG_pres_E gi.1.uid gi.2.uid
                (mergedRoot gi.2 (renumberE ctr stored).1)
                gj.1.uid gj.2 hxu2 hxp t hcond
                ⟨pj, mem_preorder_of_strict t pj hpjm, hpju, hpjt, hpjc⟩
            refine ⟨p', ?_, hp'u, hp't, hp'c⟩
            have hroot_ne : (updE gi.1.uid
                (fun cs => spliceChildren cs gi.2.uid
                  (mergedRoot gi.2 (renumberE ctr stored).1)) t).uid ≠ p'.uid := by
              rw [updE_uid, hp'u]
              intro he
              cases t with
              | mk v tg a cs =>
                have hvv := (nodup_uidsE_parts v tg a cs hnd).1
                have he' : v = gj.1.uid := he
                simp only [Element.children] at hpjm
                have hm := uid_mem_uidsL cs pj hpjm
                rw [hpju, ← he'] at hm
                exact hvv hm
            rcases mem_preorder_cases _ _ hp' with hc | hc
            · exact absurd (congrArg Element.uid hc).symm
                (by rw [hp'u] at hroot_ne ⊢; exact hroot_ne)
            · exact hc
        · -- gj was already detached; it stays detached
          right
          obtain ⟨hs1, hs2⟩ := hsmall gj (List.mem_cons_of_mem _ hgj)
          constructor
          · have h0 : (uidsE t).count gj.1.uid = 0 :=
              List.count_eq_zero.mpr hD.1
            have h1 := hstepmono gj.1.uid hs1
            exact List.count_eq_zero.mp (by omega)
          · intro d hd
            have h0 : (uidsE t).count d = 0 :=
              List.count_eq_zero.mpr (hD.2 d hd)
            have h1 := hstepmono d (hs2 d hd)
            exact List.count_eq_zero.mp (by omega)
      have hrec := ih (updE gi.1.uid
          (fun cs => spliceChildren cs gi.2.uid
            (mergedRoot gi.2 (renumberE ctr stored).1)) t)
        (renumberE ctr stored).2 tf cf h hsnb.1 hsnb.2 hsmall' hAD'
        (fun gj hgj => hpm gj (List.mem_cons_of_mem _ hgj))
        (by rw [List.map_cons, List.nodup_cons] at hdist; exact hdist.2)
        (fun gj hgj => hself gj (List.mem_cons_of_mem _ hgj))
        (List.pairwise_cons.mp hord).2
      obtain ⟨c1, c2, c3, c4⟩ := hrec
      refine ⟨c1, c2, ?_, ?_⟩
      · intro d hd
        have h1 := hstepmono d hd
        have h2 := c3 d (Nat.lt_of_lt_of_le hd hctrle)
        omega
      · intro gj hgj d hd
        rcases List.mem_cons.mp hgj with hx | hx
        · subst hx
          have h0 := hkill d hd
          have h2 := c3 d (Nat.lt_of_lt_of_le
            ((hsmall gj (List.mem_cons_self _ _)).2 d hd) hctrle)
          intro hmemf
          have := List.count_pos_iff.mpr hmemf
          omega
        · exact c4 gj hx d hd
    · -- the head pair is detached: the splice targets an absent uid
      have hid : updE gi.1.uid
          (fun cs => spliceChildren cs gi.2.uid
            (mergedRoot gi.2 (renumberE ctr stored).1)) t = t :=
        updE_not_mem gi.1.uid _ t hdet.1
      rw [hid] at h
      have hrec := ih t (renumberE ctr stored).2 tf cf h hnd
        (fun d hd => Nat.lt_of_lt_of_le (hbound d hd) hctrle) hsmall'
        (fun gj hgj => hAD gj (List.mem_cons_of_mem _ hgj))
        (fun gj hgj => hpm gj (List.mem_cons_of_mem _ hgj))
        (by rw [List.map_cons, List.nodup_cons] at hdist; exact hdist.2)
        (fun gj hgj => hself gj (List.mem_cons_of_mem _ hgj))
        (List.pairwise_cons.mp hord).2
      obtain ⟨c1, c2, c3, c4⟩ := hrec
      refine ⟨c1, c2, ?_, ?_⟩
      · intro d hd
        exact c3 d (Nat.lt_of_lt_of_le hd hctrle)
      · intro gj hgj d hd
        rcases List.mem_cons.mp hgj with hx | hx
        · subst hx
          have h0 : (uidsE t).count d = 0 :=
            List.count_eq_zero.mpr (hdet.2 d hd)
          have h2 := c3 d (Nat.lt_of_lt_of_le
            ((hsmall gj (List.mem_cons_self _ _)).2 d hd) hctrle)
          intro hmemf
          have := List.count_pos_iff.mpr hmemf
          omega
        · exact c4 gj hx d hd

/-- C10: for every matched placeholder — in particular one that itself has
child elements — a successful run removes the placeholder's entire subtree
from the output tree: no node of that subtree (placeholder or descendant,
identified by uid) appears anywhere in the result.  Holds for every
uid-distinct input, nested placeholder patterns included: a pair nested
inside another placeholder leaves the tree with the outer subtree, and its
own later iteration mutates nothing. -/
theorem claim_C10_placeholder_subtree_removed
    (fs : FS) (root tf : Element)
    (hnd : (uidsE root).Nodup)
    (hok : (inlineRoot fs root).1 = .ok tf) :
    ∀ gi ∈ findPairs root, ∀ d ∈ uidsE gi.2, d ∉ uidsE tf := by
  obtain ⟨cf, hp⟩ := inlineRoot_ok_unpack fs root tf hok
  have hinv := processImgs_invC fs (parentEntries root) (findPairs root) root
    (maxUid root + 1) tf cf hp hnd (maxUid_bound root)
    (findPairs_small root)
    (fun gi hgi => Or.inl (findPairs_init root gi hgi))
    (fun gi hgi => parentLookup_findPairs root hnd gi.1 gi.2 hgi)
    (findPairs_snd_uid_nodup root hnd)
    (findPairs_self_not_in root hnd)
    (findPairs_ord root hnd)
  exact hinv.2.2.2

/-- Witness for C10, with a nested pattern: the outer placeholder (uid 2)
contains a further g/image match (uids 3, 4).  After the run no uid of the
outer placeholder's subtree — 2, 3 or 4 — remains in the output, for the
outer pair and the nested pair alike. -/
theorem claim_C10_witness :
    (uidsE (Element.mk 0 (qn svgNS "svg") []
        [Element.mk 1 gTag []
          [Element.mk 2 imageTag [(hrefKey, "a.png")]
            [Element.mk 3 gTag []
              [Element.mk 4 imageTag [(hrefKey, "b.png")] []]]]])).Nodup
    ∧ (2 : Nat) ∉ uidsE (Element.mk 0 (qn svgNS "svg") []
        [Element.mk 1 gTag [] [Element.mk 5 (qn svgNS "svg") [] []]])
    ∧ (3 : Nat) ∉ uidsE (Element.mk 0 (qn svgNS "svg") []
        [Element.mk 1 gTag [] [Element.mk 5 (qn svgNS "svg") [] []]])
    ∧ (4 : Nat) ∉ uidsE (Element.mk 0 (qn svgNS "svg") []
        [Element.mk 1 gTag [] [Element.mk 5 (qn svgNS "svg") [] []]]) := by
  have h := claim_C10_placeholder_subtree_removed
    [("a.svg", some (Element.mk 0 (qn svgNS "svg") [] [])),
     ("b.svg", some (Element.mk 0 (qn svgNS "svg") [] []))]
    (Element.mk 0 (qn svgNS "svg") []
      [Element.mk 1 gTag []
        [Element.mk 2 imageTag [(hrefKey, "a.png")]
          [Element.mk 3 gTag []
            [Element.mk 4 imageTag [(hrefKey, "b.png")] []]]]])
    (Element.mk 0 (qn svgNS "svg") []
      [Element.mk 1 gTag [] [Element.mk 5 (qn svgNS "svg") [] []]])
    (by decide) (by rfl)
  refine ⟨by decide, ?_, ?_, ?_⟩
  · exact h (Element.mk 1 gTag []
        [Element.mk 2 imageTag [(hrefKey, "a.png")]
          [Element.mk 3 gTag [] [Element.mk 4 imageTag [(hrefKey, "b.png")] []]]],
      Element.mk 2 imageTag [(hrefKey, "a.png")]
        [Element.mk 3 gTag [] [Element.mk 4 imageTag [(hrefKey, "b.png")] []]])
      (by decide) 2 (by decide)
  · exact h (Element.mk 1 gTag []
        [Element.mk 2 imageTag [(hrefKey, "a.png")]
          [Element.mk 3 gTag [] [Element.mk 4 imageTag [(hrefKey, "b.png")] []]]],
      Element.mk 2 imageTag [(hrefKey, "a.png")]
        [Element.mk 3 gTag [] [Element.mk 4 imageTag [(hrefKey, "b.png")] []]])
      (by decide) 3 (by decide)
  · exact h (Element.mk 3 gTag [] [Element.mk 4 imageTag [(hrefKey, "b.png")] []],
      Element.mk 4 imageTag [(hrefKey, "b.png")] [])
      (by decide) 4 (by decide)
